import Mathlib

/-!
The checkpoint worker of the IAVL tree (`checkpoint.go`)

A shallow embedding of `checkpointer.run`: the worker that receives checkpoint
batches over a channel, sorts the nodes to persist and the node keys to delete,
applies the deletions and then the sets to the key/value backend, and hands
every persisted node back to the node pool.

* The backend (`KvDB`) is an external collaborator.  It is a parameter: a state
  type with `Delete`, `Set` and `Get`, each call free to fail.
* `sort.Slice` belongs to the Go standard library.  It sees the slice only
  through the two callbacks `less(i, j)` and `swap(i, j)`, so a sorting routine
  is represented by the comparison/swap program it runs for a given length
  (`SortProg`).  The routine is a parameter of `run`; the program the standard
  library runs on short slices, `insertionSortLessFunc`, is given concretely.
* Everything the worker does to the outside is recorded, in order, in a trace
  of `Event`s: the two log lines, the backend calls with their results, and
  the `pool.Put` calls.
* A Go panic (index out of range, nil pointer dereference) is a `Fault`.
* `run` blocks in `select` until the context is done or a batch arrives; a call
  of `run` is modelled over the finite sequence of outcomes of its `select`
  statements, and a call that has used them all is waiting (`Outcome.blocked`).
* Left out: the text and the duration of the log lines, and nil entries in the
  slice `args.set`.
-/

namespace Iavl

/-! ## Data model -/

/-- A Go panic raised while evaluating an index or pointer expression. -/
inductive Fault where
  | indexOutOfRange
  | nilDereference
  deriving DecidableEq, Repr

/-- A Go `error` value, identified by a code. -/
abbrev GoError := Nat

/-- The bytes of a `NodeKey` (a fixed-size byte array in the source). -/
abbrev NodeKey := List Nat

/-- The fields of `Node` that the checkpoint worker and the backend see.
`nodeKey`, `leftNodeKey` and `rightNodeKey` are pointers in the source, hence
optional here. -/
structure Node where
  nodeKey : Option NodeKey
  key : List Nat
  value : List Nat
  hash : List Nat
  size : Int
  subtreeHeight : Int
  leftNodeKey : Option NodeKey
  rightNodeKey : Option NodeKey
  dirty : Bool
  deriving DecidableEq, Repr

/-- The struct `checkpointArgs`: one checkpoint batch. -/
structure checkpointArgs where
  set : List Node
  delete : List NodeKey
  version : Int
  deriving DecidableEq, Repr

/-- The backend `KvDB` as the worker uses it, over a backend state `β`.
`Delete` returns the error (if any); `Set` returns the byte count and the
error; `Get` is the point lookup the tests read nodes back with. -/
structure KvDB (β : Type) where
  Delete : NodeKey → β → β × Option GoError
  Set : Node → β → β × Int × Option GoError
  Get : NodeKey → β → Option Node

/-- What the worker does to the outside world, in order of occurrence. -/
inductive Event where
  | logStart (version : Int)
  | delete (k : NodeKey) (err : Option GoError)
  | set (n : Node) (err : Option GoError)
  | put (n : Node)
  | logDone (version : Int) (nset ndel : Nat) (memSize dbSize : Nat)
  deriving DecidableEq, Repr

/-- The struct `checkpointer`, reduced to the backend and the capacity of the
handoff channel `ch`. -/
structure checkpointer (β : Type) where
  db : KvDB β
  chCap : Nat

/-- The constructor `newCheckpointer`: the channel is made by
`make(chan *checkpointArgs)`, an unbuffered channel. -/
def newCheckpointer {β : Type} (db : KvDB β) : checkpointer β :=
  { db := db, chCap := 0 }

/-! ## `bytes.Compare` -/

/-- The function `bytes.Compare`: lexicographic comparison of two byte strings,
with result `-1`, `0` or `1`. -/
def bytesCompare : List Nat → List Nat → Int
  | [], [] => 0
  | [], _ :: _ => -1
  | _ :: _, [] => 1
  | a :: as, b :: bs =>
    if a < b then -1 else if b < a then 1 else bytesCompare as bs

/-! ## `sort.Slice` -/

/-- A comparison/swap program over slice indices: what a run of a sorting
routine that only calls `less(i, j)` and `swap(i, j)` looks like. -/
inductive SortProg where
  | halt
  | less (i j : Nat) (yes no : SortProg)
  | swap (i j : Nat) (next : SortProg)

/-- Run a comparison/swap program on a state `σ`, given the two callbacks. -/
def SortProg.exec {σ : Type} (less : Nat → Nat → σ → Except Fault Bool)
    (swap : Nat → Nat → σ → Except Fault σ) : SortProg → σ → Except Fault σ
  | .halt, s => .ok s
  | .less i j yes no, s =>
    match less i j s with
    | .error f => .error f
    | .ok true => yes.exec less swap s
    | .ok false => no.exec less swap s
  | .swap i j next, s =>
    match swap i j s with
    | .error f => .error f
    | .ok s' => next.exec less swap s'

/-- The swap function `sort.Slice` builds for a slice (`reflectlite.Swapper`):
exchange the elements at `i` and `j`; an index outside the slice panics. -/
def swapSlice {α : Type} (i j : Nat) (xs : List α) : Except Fault (List α) :=
  match xs[i]?, xs[j]? with
  | some a, some b => .ok ((xs.set i b).set j a)
  | _, _ => .error .indexOutOfRange

/-- The call `sort.Slice(x, less)` with the sorting routine `S`: the routine
runs its program for `len(x)` with the caller's `less` and the slice swapper. -/
def sortSlice {α : Type} (S : Nat → SortProg)
    (less : Nat → Nat → List α → Except Fault Bool) (x : List α) :
    Except Fault (List α) :=
  (S x.length).exec less swapSlice x

/-- The inner loop of `insertionSortLessFunc`:
`for j := i; j > a && less(j, j-1); j-- { swap(j, j-1) }`, followed by `next`. -/
def insertionInner (a : Nat) : Nat → SortProg → SortProg
  | 0, next => next
  | j + 1, next =>
    if a < j + 1 then
      .less (j + 1) j (.swap (j + 1) j (insertionInner a j next)) next
    else next

/-- The outer loop of `insertionSortLessFunc`, `for i := ...; i < b; i++`,
with `n` iterations left. -/
def insertionOuter (a : Nat) : Nat → Nat → SortProg
  | 0, _ => .halt
  | n + 1, i => insertionInner a i (insertionOuter a n (i + 1))

/-- The function `insertionSortLessFunc(data, a, b)` of the Go standard library:
insertion sort of `data[a:b]` through `less` and `swap`. -/
def insertionSortLessFunc (a b : Nat) : SortProg :=
  insertionOuter a (b - (a + 1)) (a + 1)

/-- The routine `sort.Slice` runs on a short slice (at most 12 elements):
`insertionSortLessFunc(data, 0, n)`.  On longer slices the library partitions
first; that part is not given here, so beyond 12 elements this routine is a
sorting routine that meets the contract of `sort.Slice`, not the library's
own.  The theorems that hold for every sorting routine cover the library's. -/
def shortSliceSort (n : Nat) : SortProg :=
  insertionSortLessFunc 0 n

/-! ## `checkpointer.run` -/

/-- The expression `args.set[i].nodeKey[:]`: index the slice, then slice the
array the node's `nodeKey` points to. -/
def nodeKeyBytes (set : List Node) (i : Nat) : Except Fault NodeKey :=
  match set[i]? with
  | none => .error .indexOutOfRange
  | some n =>
    match n.nodeKey with
    | none => .error .nilDereference
    | some k => .ok k

/-- The comparator both `sort.Slice` calls of `run` pass: it reads
`args.set[i].nodeKey` and `args.set[j].nodeKey`. -/
def lessBySetKey (set : List Node) (i j : Nat) : Except Fault Bool :=
  match nodeKeyBytes set i with
  | .error f => .error f
  | .ok x =>
    match nodeKeyBytes set j with
    | .error f => .error f
    | .ok y => .ok (decide (bytesCompare x y < 0))

/-- How the processing of one batch ends. -/
inductive BatchOutcome where
  | completed
  | failed (err : GoError)
  | panicked (f : Fault)
  deriving DecidableEq, Repr

/-- The loop `for _, nodeKey := range args.delete`: the backend state, the
events, and the error that stopped the loop (if any). -/
def deleteLoop {β : Type} (db : KvDB β) : List NodeKey → β → β × List Event × Option GoError
  | [], b => (b, [], none)
  | k :: ks, b =>
    match db.Delete k b with
    | (b', some e) => (b', [Event.delete k (some e)], some e)
    | (b', none) =>
      let r := deleteLoop db ks b'
      (r.1, Event.delete k none :: r.2.1, r.2.2)

/-- Conversion `uint64(n)` of a Go `int`. -/
def toUint64 (n : Int) : Nat := (n % (2 ^ 64 : Int)).toNat

/-- Addition of two `uint64` values (`+=` on `memSize` and `dbSize`). -/
def addUint64 (a b : Nat) : Nat := (a + b) % 2 ^ 64

/-- The loop `for _, node := range args.set`, with the two `uint64` counters:
the backend state, the events, the counters and the error (if any). -/
def setLoop {β : Type} (db : KvDB β) (sizeBytes : Node → Nat) :
    List Node → β → Nat → Nat → β × List Event × (Nat × Nat) × Option GoError
  | [], b, memSize, dbSize => (b, [], (memSize, dbSize), none)
  | node :: ns, b, memSize, dbSize =>
    let memSize' := addUint64 memSize (sizeBytes node)
    match db.Set node b with
    | (b', _, some e) => (b', [Event.set node (some e)], (memSize', dbSize), some e)
    | (b', n, none) =>
      let dbSize' := addUint64 dbSize (toUint64 n)
      let r := setLoop db sizeBytes ns b' memSize' dbSize'
      (r.1, Event.set node none :: Event.put node :: r.2.1, r.2.2.1, r.2.2.2)

/-- The body of the `case args := <-cp.ch` branch of `run`: the processing of
one batch. -/
def runBatch {β : Type} (db : KvDB β) (S : Nat → SortProg) (sizeBytes : Node → Nat)
    (args : checkpointArgs) (b : β) : β × List Event × BatchOutcome :=
  match sortSlice S (fun i j s => lessBySetKey s i j) args.set with
  | .error f => (b, [Event.logStart args.version], .panicked f)
  | .ok set =>
    match sortSlice S (fun i j _ => lessBySetKey set i j) args.delete with
    | .error f => (b, [Event.logStart args.version], .panicked f)
    | .ok del =>
      match deleteLoop db del b with
      | (b1, evs1, some e) => (b1, Event.logStart args.version :: evs1, .failed e)
      | (b1, evs1, none) =>
        match setLoop db sizeBytes set b1 0 0 with
        | (b2, evs2, _, some e) =>
          (b2, Event.logStart args.version :: (evs1 ++ evs2), .failed e)
        | (b2, evs2, (memSize, dbSize), none) =>
          (b2, Event.logStart args.version :: (evs1 ++ evs2 ++
            [Event.logDone args.version set.length del.length memSize dbSize]),
            .completed)

/-- What one `select` of the run loop yields: the context is done, or a batch
arrives on the channel. -/
inductive Select where
  | done
  | recv (args : checkpointArgs)
  deriving DecidableEq, Repr

/-- How a call of `run` ends: it returns an error value (`none` is `nil`), it
panics, or it waits in `select` for ever. -/
inductive Outcome where
  | returned (err : Option GoError)
  | panicked (f : Fault)
  | blocked
  deriving DecidableEq, Repr

/-- The method `checkpointer.run`, over the sequence of outcomes of its
`select` statements. -/
def run {β : Type} (cp : checkpointer β) (S : Nat → SortProg) (sizeBytes : Node → Nat) :
    List Select → β → β × List Event × Outcome
  | [], b => (b, [], .blocked)
  | .done :: _, b => (b, [], .returned none)
  | .recv args :: rest, b =>
    match runBatch cp.db S sizeBytes args b with
    | (b', evs, .failed e) => (b', evs, .returned (some e))
    | (b', evs, .panicked f) => (b', evs, .panicked f)
    | (b', evs, .completed) =>
      let r := run cp S sizeBytes rest b'
      (r.1, evs ++ r.2.1, r.2.2)

/-! ## A concrete backend -/

/-- State of an in-memory backend: the stored nodes and, for each coming call,
the error it is to fail with (nothing planned: the call succeeds). -/
structure MapState where
  nodes : List (NodeKey × Node)
  plan : List (Option GoError)
  deriving DecidableEq, Repr

/-- The planned result of the next call, and the plan left after it. -/
def MapState.next (b : MapState) : Option GoError × List (Option GoError) :=
  match b.plan with
  | [] => (none, [])
  | r :: p => (r, p)

/-- An in-memory backend over an association list.  A failing call leaves the
stored nodes alone; a node without node key is refused with error `0`. -/
def memDB : KvDB MapState where
  Delete k b :=
    match b.next with
    | (some e, p) => ({ nodes := b.nodes, plan := p }, some e)
    | (none, p) => ({ nodes := b.nodes.filter (fun kv => decide (kv.1 ≠ k)), plan := p }, none)
  Set n b :=
    match n.nodeKey, b.next with
    | none, (_, p) => ({ nodes := b.nodes, plan := p }, 0, some 0)
    | some _, (some e, p) => ({ nodes := b.nodes, plan := p }, 0, some e)
    | some k, (none, p) =>
      ({ nodes := (k, n) :: b.nodes.filter (fun kv => decide (kv.1 ≠ k)), plan := p },
        (n.key.length + n.value.length : Nat), none)
  Get k b := (b.nodes.find? (fun kv => decide (kv.1 = k))).map Prod.snd

/-- The batches `run` receives before the context is done. -/
def received : List Select → List checkpointArgs
  | [] => []
  | .done :: _ => []
  | .recv args :: rest => args :: received rest

/-! ## Sample inputs -/

/-- Node key of version 1, sequence 1. -/
def keyA : NodeKey := [0, 0, 0, 0, 0, 0, 0, 1, 0, 0, 0, 0, 0, 0, 0, 1]

/-- Node key of version 1, sequence 2. -/
def keyB : NodeKey := [0, 0, 0, 0, 0, 0, 0, 1, 0, 0, 0, 0, 0, 0, 0, 2]

/-- Node key of version 1, sequence 3. -/
def keyC : NodeKey := [0, 0, 0, 0, 0, 0, 0, 1, 0, 0, 0, 0, 0, 0, 0, 3]

/-- A leaf with the given node key, key and value. -/
def leaf (nodeKey : NodeKey) (key value : List Nat) : Node :=
  { nodeKey := some nodeKey, key := key, value := value, hash := [171, 18],
    size := 1, subtreeHeight := 1, leftNodeKey := none, rightNodeKey := none,
    dirty := true }

def leafA : Node := leaf keyA [97] [1]

def leafB : Node := leaf keyB [98] [2]

def leafC : Node := leaf keyC [99] [3]

/-- A size function for nodes: the bytes of key and value. -/
def payloadBytes (n : Node) : Nat := n.key.length + n.value.length

/-- An empty in-memory backend in which every call succeeds. -/
def emptyStore : MapState := { nodes := [], plan := [] }

/-- A backend holding an older node under `keyA`, in which every call succeeds. -/
def staleStore : MapState :=
  { nodes := [(keyA, leaf keyA [97] [0])], plan := [] }

/-- A backend holding an older node under `keyA`, in which the first call
succeeds and the second fails with error `7`. -/
def faultyStore : MapState :=
  { nodes := [(keyA, leaf keyA [97] [0])], plan := [none, some 7] }

/-- A batch in caller order: the nodes by descending key, and `keyA` both
deleted and set. -/
def sampleBatch : checkpointArgs :=
  { set := [leafC, leafA, leafB], delete := [keyA], version := 1 }

/-- A batch with two keys to delete, given in descending order, and two nodes
to set. -/
def descendingDeletes : checkpointArgs :=
  { set := [leafC, leafB], delete := [keyB, keyA], version := 2 }

/-- A batch with two keys to delete and no node to set. -/
def deletesOnly : checkpointArgs :=
  { set := [], delete := [keyA, keyB], version := 3 }

/-! ## Specification vocabulary -/

/-- A comparator over the elements of the slice being sorted:
`less(i, j)` is `lt x[i] x[j]`, and an index outside the slice panics. -/
def sliceLess {α : Type} (lt : α → α → Bool) (i j : Nat) (xs : List α) :
    Except Fault Bool :=
  match xs[i]?, xs[j]? with
  | some a, some b => .ok (lt a b)
  | _, _ => .error .indexOutOfRange

/-- What `sort.Slice` asks of `less`: a strict weak ordering. -/
structure StrictWeakOrder {α : Type} (lt : α → α → Bool) : Prop where
  irrefl : ∀ a, lt a a = false
  trans : ∀ a b c, lt a b = true → lt b c = true → lt a c = true
  negTrans : ∀ a b c, lt a c = true → lt a b = true ∨ lt b c = true

/-- The contract of `sort.Slice` for a sorting routine `S`: called with a
`less` that orders the elements of the slice by a strict weak ordering, it
returns, and no element of the resulting slice is less than an earlier one. -/
def SortsSlices (S : Nat → SortProg) : Prop :=
  ∀ (α : Type) (lt : α → α → Bool), StrictWeakOrder lt → ∀ xs : List α,
    ∃ ys, sortSlice S (sliceLess lt) xs = .ok ys ∧
      ys.Pairwise (fun a b => lt b a = false)

/-- The order of two nodes by `bytes.Compare` of their node keys. -/
def nodeKeyLt (m n : Node) : Bool :=
  decide (bytesCompare (m.nodeKey.getD []) (n.nodeKey.getD []) < 0)

/-- The node keys passed to the backend's `Delete`, in call order. -/
def deleteKeys : List Event → List NodeKey
  | [] => []
  | Event.delete k _ :: evs => k :: deleteKeys evs
  | _ :: evs => deleteKeys evs

/-- The nodes passed to the backend's `Set`, in call order. -/
def setNodes : List Event → List Node
  | [] => []
  | Event.set n _ :: evs => n :: setNodes evs
  | _ :: evs => setNodes evs

/-- The nodes passed to `pool.Put`, in call order. -/
def putNodes : List Event → List Node
  | [] => []
  | Event.put n :: evs => n :: putNodes evs
  | _ :: evs => putNodes evs

/-- The error a backend call returned, if the event is a failed backend call. -/
def Event.failure : Event → Option GoError
  | .delete _ err => err
  | .set _ err => err
  | _ => none

/-- The event is a call of the backend. -/
def Event.isBackendOp : Event → Bool
  | .delete _ _ => true
  | .set _ _ => true
  | _ => false

/-- The nodes whose `Set` returned without error, in call order. -/
def storedNodes : List Event → List Node
  | [] => []
  | Event.set n none :: evs => n :: storedNodes evs
  | _ :: evs => storedNodes evs

/-- The event belongs to the batch: one of its two log lines, a `Delete` of
one of its keys, or a `Set` or `pool.Put` of one of its nodes. -/
def Event.ofBatch (args : checkpointArgs) : Event → Prop
  | .logStart v => v = args.version
  | .delete k _ => k ∈ args.delete
  | .set n _ => n ∈ args.set
  | .put n => n ∈ args.set
  | .logDone v _ _ _ _ => v = args.version

/-- The two events of a node persisted with success: the `Set`, then the
`pool.Put`. -/
def persisted (n : Node) : List Event := [Event.set n none, Event.put n]

/-- Two nodes agree on every field the backend stores. -/
def Node.sameStored (m n : Node) : Prop :=
  m.nodeKey = n.nodeKey ∧ m.key = n.key ∧ m.value = n.value ∧ m.hash = n.hash ∧
  m.size = n.size ∧ m.subtreeHeight = n.subtreeHeight ∧
  m.leftNodeKey = n.leftNodeKey ∧ m.rightNodeKey = n.rightNodeKey

/-- Modelled from the spec: the contract of the durable backend (the backend
itself is an external collaborator).  After a successful `Set` of a node,
`Get` of its node key returns a node with the same stored fields and every
other key reads as before; after a successful `Delete`, `Get` of that key
returns nothing and every other key reads as before. -/
structure KvContract {β : Type} (db : KvDB β) : Prop where
  get_set_same : ∀ n k b, n.nodeKey = some k → (db.Set n b).2.2 = none →
    ∃ m, db.Get k (db.Set n b).1 = some m ∧ m.sameStored n
  get_set_other : ∀ n k b, n.nodeKey ≠ some k → (db.Set n b).2.2 = none →
    db.Get k (db.Set n b).1 = db.Get k b
  get_delete_same : ∀ k b, (db.Delete k b).2 = none → db.Get k (db.Delete k b).1 = none
  get_delete_other : ∀ k k' b, k' ≠ k → (db.Delete k b).2 = none →
    db.Get k' (db.Delete k b).1 = db.Get k' b

/-! ## Insertion sort meets the contract of `sort.Slice` -/

theorem getElem?_append_length_succ {α : Type} (p : List α) (y x : α) (r : List α) :
    (p ++ y :: x :: r)[p.length + 1]? = some x := by
  rw [List.getElem?_append_right (by omega)]
  simp

theorem getElem?_append_length {α : Type} (p : List α) (y : α) (r : List α) :
    (p ++ y :: r)[p.length]? = some y := by
  rw [List.getElem?_append_right (by omega)]
  simp

theorem sliceLess_adjacent {α : Type} (lt : α → α → Bool) (p : List α) (y x : α)
    (r : List α) :
    sliceLess lt (p.length + 1) p.length (p ++ y :: x :: r) = .ok (lt x y) := by
  simp only [sliceLess, getElem?_append_length_succ, getElem?_append_length]

theorem swapSlice_adjacent {α : Type} (p : List α) (y x : α) (r : List α) :
    swapSlice (p.length + 1) p.length (p ++ y :: x :: r) = .ok (p ++ x :: y :: r) := by
  simp only [swapSlice, getElem?_append_length_succ, getElem?_append_length]
  congr 1
  rw [List.set_append_right _ _ (by omega), List.set_append_right _ _ (by simp)]
  simp

/-- The inner loop sinks the element at index `p.length` into the part `p`
before it: it stops in front of the first element (from the right) that is not
greater. -/
theorem exec_insertionInner {α : Type} (lt : α → α → Bool) (next : SortProg) :
    ∀ (n : Nat) (p : List α) (x : α) (r : List α), p.length = n →
      ∃ p1 p2, p = p1 ++ p2 ∧ (∀ y ∈ p2, lt x y = true) ∧
        (∀ y, p1.getLast? = some y → lt x y = false) ∧
        (insertionInner 0 n next).exec (sliceLess lt) swapSlice (p ++ x :: r) =
          next.exec (sliceLess lt) swapSlice (p1 ++ x :: (p2 ++ r)) := by
  intro n
  induction n with
  | zero =>
    intro p x r hp
    have hnil : p = [] := List.length_eq_zero.mp hp
    subst hnil
    exact ⟨[], [], rfl, by simp, by simp, rfl⟩
  | succ n ih =>
    intro p x r hp
    rcases List.eq_nil_or_concat p with hnil | ⟨q, y, hq⟩
    · subst hnil; simp at hp
    · subst hq
      have hqn : q.length = n := by simpa using hp
      subst hqn
      have hstate : q.concat y ++ x :: r = q ++ y :: x :: r := by simp
      cases hlt : lt x y with
      | true =>
        obtain ⟨p1, p2, hsplit, hgt, hlast, hexec⟩ := ih q x (y :: r) rfl
        refine ⟨p1, p2 ++ [y], by simp [hsplit], ?_, hlast, ?_⟩
        · intro z hz
          rcases List.mem_append.mp hz with h | h
          · exact hgt z h
          · simp at h; subst h; exact hlt
        · rw [hstate]
          simp only [insertionInner, Nat.zero_lt_succ, if_true, SortProg.exec,
            sliceLess_adjacent, swapSlice_adjacent, hlt]
          rw [hexec]
          simp
      | false =>
        refine ⟨q ++ [y], [], by simp, by simp, ?_, ?_⟩
        · intro z hz
          simp at hz
          subst hz
          exact hlt
        · rw [hstate]
          simp only [insertionInner, Nat.zero_lt_succ, if_true, SortProg.exec,
            sliceLess_adjacent, hlt]
          simp

/-- Sinking `x` into a sorted list leaves it sorted. -/
theorem pairwise_sink {α : Type} {lt : α → α → Bool} (h : StrictWeakOrder lt)
    (p1 p2 : List α) (x : α)
    (hs : (p1 ++ p2).Pairwise (fun a b => lt b a = false))
    (hgt : ∀ y ∈ p2, lt x y = true)
    (hlast : ∀ y, p1.getLast? = some y → lt x y = false) :
    (p1 ++ x :: p2).Pairwise (fun a b => lt b a = false) := by
  have hasym : ∀ a b, lt a b = true → lt b a = false := by
    intro a b hab
    cases hba : lt b a with
    | false => rfl
    | true =>
      have := h.trans a b a hab hba
      rw [h.irrefl a] at this
      exact absurd this (by simp)
  rw [List.pairwise_append] at hs ⊢
  obtain ⟨hp1, hp2, hcross⟩ := hs
  refine ⟨hp1, ?_, ?_⟩
  · rw [List.pairwise_cons]
    exact ⟨fun y hy => hasym x y (hgt y hy), hp2⟩
  · intro a ha b hb
    rcases List.mem_cons.mp hb with hbx | hb2
    · subst hbx
      rcases List.eq_nil_or_concat p1 with hnil | ⟨q, z, hq⟩
      · subst hnil; simp at ha
      · subst hq
        have hz : lt b z = false := hlast z (by simp)
        simp only [List.concat_eq_append, List.mem_append, List.mem_singleton] at ha
        rcases ha with haq | haz
        · have hza : lt z a = false := by
            simp only [List.concat_eq_append] at hp1
            rw [List.pairwise_append] at hp1
            exact hp1.2.2 a haq z (by simp)
          cases hba : lt b a with
          | false => rfl
          | true =>
            rcases h.negTrans b z a hba with h1 | h1
            · rw [hz] at h1; exact absurd h1 (by simp)
            · rw [hza] at h1; exact absurd h1 (by simp)
        · subst haz; exact hz
    · exact hcross a ha b hb2

/-- The outer loop of insertion sort, started on a sorted part `p`, returns
with the whole slice sorted. -/
theorem exec_insertionOuter {α : Type} {lt : α → α → Bool} (h : StrictWeakOrder lt) :
    ∀ (n : Nat) (p r : List α), r.length = n →
      p.Pairwise (fun a b => lt b a = false) →
      ∃ ys, (insertionOuter 0 n p.length).exec (sliceLess lt) swapSlice (p ++ r) = .ok ys ∧
        ys.Pairwise (fun a b => lt b a = false) := by
  intro n
  induction n with
  | zero =>
    intro p r hr hp
    have hnil : r = [] := List.length_eq_zero.mp hr
    subst hnil
    exact ⟨p, by simp [insertionOuter, SortProg.exec], hp⟩
  | succ n ih =>
    intro p r hr hp
    cases r with
    | nil => simp at hr
    | cons x r =>
      obtain ⟨p1, p2, hsplit, hgt, hlast, hexec⟩ :=
        exec_insertionInner lt (insertionOuter 0 n (p.length + 1)) p.length p x r rfl
      have hsorted := pairwise_sink h p1 p2 x (hsplit ▸ hp) hgt hlast
      have hlen : (p1 ++ x :: p2).length = p.length + 1 := by
        rw [hsplit]; simp; omega
      obtain ⟨ys, hys, hpw⟩ := ih (p1 ++ x :: p2) r (by simpa using hr) hsorted
      refine ⟨ys, ?_, hpw⟩
      rw [insertionOuter, hexec]
      rw [hlen] at hys
      simpa using hys

/-- Insertion sort through `less` and `swap` meets the contract of `sort.Slice`. -/
theorem shortSliceSort_sorts : SortsSlices shortSliceSort := by
  intro α lt h xs
  cases xs with
  | nil => exact ⟨[], by simp [sortSlice, shortSliceSort, insertionSortLessFunc,
      insertionOuter, SortProg.exec], List.Pairwise.nil⟩
  | cons x r =>
    obtain ⟨ys, hys, hpw⟩ := exec_insertionOuter h r.length [x] r rfl (by simp)
    refine ⟨ys, ?_, hpw⟩
    simpa [sortSlice, shortSliceSort, insertionSortLessFunc] using hys

/-! ## `bytes.Compare` is a total order on byte strings -/

theorem bytesCompare_self (x : List Nat) : bytesCompare x x = 0 := by
  induction x with
  | nil => rfl
  | cons a as ih => simp [bytesCompare, ih]

theorem bytesCompare_flip : ∀ x y : List Nat, bytesCompare x y = - bytesCompare y x
  | [], [] => by simp [bytesCompare]
  | [], _ :: _ => by simp [bytesCompare]
  | _ :: _, [] => by simp [bytesCompare]
  | a :: as, b :: bs => by
    have ih := bytesCompare_flip as bs
    simp only [bytesCompare]
    split_ifs <;> omega

theorem bytesCompare_lt_trans : ∀ x y z : List Nat,
    bytesCompare x y < 0 → bytesCompare y z < 0 → bytesCompare x z < 0
  | [], [], _ => by simp [bytesCompare]
  | [], _ :: _, [] => by simp [bytesCompare]
  | [], _ :: _, _ :: _ => by simp [bytesCompare]
  | _ :: _, [], _ => by simp [bytesCompare]
  | _ :: _, _ :: _, [] => by simp [bytesCompare]
  | a :: as, b :: bs, c :: cs => by
    have ih := bytesCompare_lt_trans as bs cs
    simp only [bytesCompare]
    intro h1 h2
    split_ifs at h1 h2 ⊢ <;> omega

theorem bytesCompare_lt_negTrans : ∀ x y z : List Nat,
    bytesCompare x z < 0 → bytesCompare x y < 0 ∨ bytesCompare y z < 0
  | [], [], _ => by simp [bytesCompare]
  | [], _ :: _, _ => by simp [bytesCompare]
  | _ :: _, _, [] => by simp [bytesCompare]
  | _ :: _, [], _ :: _ => by simp [bytesCompare]
  | a :: as, b :: bs, c :: cs => by
    have ih := bytesCompare_lt_negTrans as bs cs
    simp only [bytesCompare]
    intro h1
    split_ifs at h1 ⊢ <;> omega

theorem nodeKeyLt_strictWeakOrder : StrictWeakOrder nodeKeyLt where
  irrefl a := by simp [nodeKeyLt, bytesCompare_self]
  trans a b c h1 h2 := by
    simp only [nodeKeyLt, decide_eq_true_eq] at h1 h2 ⊢
    exact bytesCompare_lt_trans _ _ _ h1 h2
  negTrans a b c h := by
    simp only [nodeKeyLt, decide_eq_true_eq] at h ⊢
    exact bytesCompare_lt_negTrans _ _ _ h

/-! ## What any comparison/swap program does to a slice -/

theorem cons_set_perm {α : Type} : ∀ (xs : List α) (j : Nat) (b x : α),
    xs[j]? = some b → (b :: xs.set j x).Perm (x :: xs)
  | [], _, _, _, h => by simp at h
  | y :: ys, 0, b, x, h => by
    simp at h
    subst h
    simpa using List.Perm.swap x y ys
  | y :: ys, j + 1, b, x, h => by
    simp at h
    have ih := cons_set_perm ys j b x h
    simp only [List.set_cons_succ]
    exact ((List.Perm.swap y b _).trans (ih.cons y)).trans (List.Perm.swap x y ys)

theorem set_set_perm_of_getElem? {α : Type} : ∀ (xs : List α) (i j : Nat) (a b : α),
    xs[i]? = some a → xs[j]? = some b → ((xs.set i b).set j a).Perm xs
  | [], _, _, _, _, h, _ => by simp at h
  | x :: xs, 0, 0, a, b, hi, hj => by
    simp at hi hj
    subst hi
    simp
  | x :: xs, 0, j + 1, a, b, hi, hj => by
    simp at hi hj
    subst hi
    simpa using cons_set_perm xs j b x hj
  | x :: xs, i + 1, 0, a, b, hi, hj => by
    simp at hi hj
    subst hj
    simpa using cons_set_perm xs i a x hi
  | x :: xs, i + 1, j + 1, a, b, hi, hj => by
    simp at hi hj
    simpa using (set_set_perm_of_getElem? xs i j a b hi hj).cons x

theorem swapSlice_perm {α : Type} {i j : Nat} {xs ys : List α}
    (h : swapSlice i j xs = .ok ys) : ys.Perm xs := by
  unfold swapSlice at h
  split at h
  · rename_i a b ha hb
    cases h
    exact set_set_perm_of_getElem? xs i j a b ha hb
  · cases h

/-- A comparison/swap program only permutes the slice, whatever `less` answers. -/
theorem exec_perm {α : Type} (less : Nat → Nat → List α → Except Fault Bool) :
    ∀ (prog : SortProg) (xs ys : List α),
      prog.exec less swapSlice xs = .ok ys → ys.Perm xs := by
  intro prog
  induction prog with
  | halt =>
    intro xs ys h
    simp only [SortProg.exec] at h
    cases h
    exact List.Perm.refl _
  | less i j yes no ihy ihn =>
    intro xs ys h
    simp only [SortProg.exec] at h
    split at h
    · cases h
    · exact ihy xs ys h
    · exact ihn xs ys h
  | swap i j next ih =>
    intro xs ys h
    simp only [SortProg.exec] at h
    split at h
    · cases h
    · rename_i s hs
      exact (ih s ys h).trans (swapSlice_perm hs)

theorem sortSlice_perm {α : Type} (S : Nat → SortProg)
    (less : Nat → Nat → List α → Except Fault Bool) {xs ys : List α}
    (h : sortSlice S less xs = .ok ys) : ys.Perm xs :=
  exec_perm less _ xs ys h

/-- Two comparators that agree on every slice satisfying an invariant kept by
swapping drive a program the same way. -/
theorem exec_congr {α : Type} (P : List α → Prop)
    (less1 less2 : Nat → Nat → List α → Except Fault Bool)
    (hswap : ∀ i j xs ys, P xs → swapSlice i j xs = .ok ys → P ys)
    (hless : ∀ i j xs, P xs → less1 i j xs = less2 i j xs) :
    ∀ (prog : SortProg) (xs : List α), P xs →
      prog.exec less1 swapSlice xs = prog.exec less2 swapSlice xs := by
  intro prog
  induction prog with
  | halt => intro xs _; rfl
  | less i j yes no ihy ihn =>
    intro xs hP
    simp only [SortProg.exec, hless i j xs hP]
    split
    · rfl
    · exact ihy xs hP
    · exact ihn xs hP
  | swap i j next ih =>
    intro xs hP
    simp only [SortProg.exec]
    split
    · rfl
    · rename_i s hs
      exact ih s (hswap i j xs s hP hs)

/-- On a slice whose nodes all carry a node key, the comparator of `run` is
the order of the node keys. -/
theorem lessBySetKey_eq_sliceLess (xs : List Node)
    (hk : ∀ n ∈ xs, n.nodeKey.isSome = true) (i j : Nat) :
    lessBySetKey xs i j = sliceLess nodeKeyLt i j xs := by
  unfold lessBySetKey nodeKeyBytes sliceLess
  cases hi : xs[i]? with
  | none => simp
  | some m =>
    have hm : m ∈ xs := List.getElem?_mem hi
    obtain ⟨x, hx⟩ := Option.isSome_iff_exists.mp (hk m hm)
    cases hj : xs[j]? with
    | none => simp [hx]
    | some n =>
      have hn : n ∈ xs := List.getElem?_mem hj
      obtain ⟨y, hy⟩ := Option.isSome_iff_exists.mp (hk n hn)
      simp [hx, hy, nodeKeyLt]

/-- The first `sort.Slice` of `run`: with a routine that meets the contract and
nodes that all carry a node key, it returns the nodes in node-key order. -/
theorem sortSlice_set_sorted (S : Nat → SortProg) (hS : SortsSlices S)
    (xs : List Node) (hk : ∀ n ∈ xs, n.nodeKey.isSome = true) :
    ∃ ys, sortSlice S (fun i j s => lessBySetKey s i j) xs = .ok ys ∧
      ys.Pairwise (fun a b => nodeKeyLt b a = false) := by
  obtain ⟨ys, hys, hpw⟩ := hS Node nodeKeyLt nodeKeyLt_strictWeakOrder xs
  refine ⟨ys, ?_, hpw⟩
  rw [← hys]
  unfold sortSlice
  exact exec_congr (fun s : List Node => ∀ n ∈ s, n.nodeKey.isSome = true)
    (fun i j s => lessBySetKey s i j) (sliceLess nodeKeyLt)
    (fun i j s t hs hst n hn => hs n ((swapSlice_perm hst).subset hn))
    (fun i j s hs => lessBySetKey_eq_sliceLess s hs i j) _ xs hk

/-! ## The two loops of `run` -/

/-- The delete loop either deletes every key with success, in order, or stops
at the first failing `Delete`, which is its last event. -/
theorem deleteLoop_spec {β : Type} (db : KvDB β) : ∀ (ks : List NodeKey) (b : β),
    ((deleteLoop db ks b).2.2 = none ∧
      (deleteLoop db ks b).2.1 = ks.map (fun k => Event.delete k none)) ∨
    (∃ done k rest e, ks = done ++ k :: rest ∧ (deleteLoop db ks b).2.2 = some e ∧
      (deleteLoop db ks b).2.1 =
        done.map (fun k => Event.delete k none) ++ [Event.delete k (some e)]) := by
  intro ks
  induction ks with
  | nil => intro b; left; simp [deleteLoop]
  | cons k ks ih =>
    intro b
    rcases hd : db.Delete k b with ⟨b1, r⟩
    cases r with
    | some e =>
      right
      exact ⟨[], k, ks, e, rfl, by simp [deleteLoop, hd], by simp [deleteLoop, hd]⟩
    | none =>
      rcases ih b1 with ⟨h1, h2⟩ | ⟨done, k1, rest, e, h1, h2, h3⟩
      · left
        simp [deleteLoop, hd, h1, h2]
      · right
        refine ⟨k :: done, k1, rest, e, by simp [h1], ?_, ?_⟩
        · simp [deleteLoop, hd, h2]
        · simp [deleteLoop, hd, h3]

/-- The set loop either persists every node with success, each `Set` followed
at once by the `pool.Put` of the same node, or stops at the first failing
`Set`, which is its last event. -/
theorem setLoop_spec {β : Type} (db : KvDB β) (sizeBytes : Node → Nat) :
    ∀ (ns : List Node) (b : β) (memSize dbSize : Nat),
    ((setLoop db sizeBytes ns b memSize dbSize).2.2.2 = none ∧
      (setLoop db sizeBytes ns b memSize dbSize).2.1 = ns.flatMap persisted) ∨
    (∃ done n rest e, ns = done ++ n :: rest ∧
      (setLoop db sizeBytes ns b memSize dbSize).2.2.2 = some e ∧
      (setLoop db sizeBytes ns b memSize dbSize).2.1 =
        done.flatMap persisted ++ [Event.set n (some e)]) := by
  intro ns
  induction ns with
  | nil => intro b m d; left; simp [setLoop]
  | cons n ns ih =>
    intro b m d
    rcases hd : db.Set n b with ⟨b1, cnt, r⟩
    cases r with
    | some e =>
      right
      exact ⟨[], n, ns, e, rfl, by simp [setLoop, hd], by simp [setLoop, hd]⟩
    | none =>
      rcases ih b1 (addUint64 m (sizeBytes n)) (addUint64 d (toUint64 cnt)) with
        ⟨h1, h2⟩ | ⟨done, n1, rest, e, h1, h2, h3⟩
      · left
        simp [setLoop, hd, h1, h2, persisted]
      · right
        refine ⟨n :: done, n1, rest, e, by simp [h1], ?_, ?_⟩
        · simp [setLoop, hd, h2]
        · simp [setLoop, hd, h3, persisted]

/-! ## The shape of one batch -/

/-- Every way the processing of one batch can go: a comparator panics during
one of the two sorts, before any backend call; a `Delete` fails; a `Set` fails;
or the batch is applied whole. -/
theorem runBatch_cases {β : Type} (db : KvDB β) (S : Nat → SortProg)
    (sizeBytes : Node → Nat) (args : checkpointArgs) (b : β) :
    (∃ f, runBatch db S sizeBytes args b =
        (b, [Event.logStart args.version], .panicked f)) ∨
    (∃ set del, sortSlice S (fun i j s => lessBySetKey s i j) args.set = .ok set ∧
      sortSlice S (fun i j _ => lessBySetKey set i j) args.delete = .ok del ∧
      ((∃ done k rest e, del = done ++ k :: rest ∧
          (runBatch db S sizeBytes args b).2 =
            (Event.logStart args.version ::
              (done.map (fun k => Event.delete k none) ++ [Event.delete k (some e)]),
             .failed e)) ∨
       (∃ done n rest e, set = done ++ n :: rest ∧
          (runBatch db S sizeBytes args b).2 =
            (Event.logStart args.version ::
              (del.map (fun k => Event.delete k none) ++
                (done.flatMap persisted ++ [Event.set n (some e)])),
             .failed e)) ∨
       (∃ memSize dbSize,
          (deleteLoop db del b).2.2 = none ∧
          (setLoop db sizeBytes set (deleteLoop db del b).1 0 0).2.2.2 = none ∧
          runBatch db S sizeBytes args b =
            ((setLoop db sizeBytes set (deleteLoop db del b).1 0 0).1,
             Event.logStart args.version ::
              (del.map (fun k => Event.delete k none) ++ set.flatMap persisted ++
                [Event.logDone args.version set.length del.length memSize dbSize]),
             .completed)))) := by
  cases hset : sortSlice S (fun i j s => lessBySetKey s i j) args.set with
  | error f => left; exact ⟨f, by simp only [runBatch, hset]⟩
  | ok set =>
    cases hdel : sortSlice S (fun i j _ => lessBySetKey set i j) args.delete with
    | error f => left; exact ⟨f, by simp only [runBatch, hset, hdel]⟩
    | ok del =>
      right
      refine ⟨set, del, rfl, hdel, ?_⟩
      rcases hd : deleteLoop db del b with ⟨b1, evs1, r1⟩
      have hdspec := deleteLoop_spec db del b
      rw [hd] at hdspec
      cases r1 with
      | some e =>
        left
        rcases hdspec with ⟨h1, _⟩ | ⟨done, k, rest, e1, h1, h2, h3⟩
        · simp at h1
        · simp only at h2 h3
          cases h2
          exact ⟨done, k, rest, e, h1, by simp only [runBatch, hset, hdel, hd, h3]⟩
      | none =>
        right
        rcases hdspec with ⟨_, h2⟩ | ⟨done, k, rest, e1, h1, h2, h3⟩
        · simp only at h2
          rcases hs : setLoop db sizeBytes set b1 0 0 with ⟨b2, evs2, ⟨mem, dbs⟩, r2⟩
          have hsspec := setLoop_spec db sizeBytes set b1 0 0
          rw [hs] at hsspec
          cases r2 with
          | some e =>
            left
            rcases hsspec with ⟨g1, _⟩ | ⟨done, n, rest, e1, g1, g2, g3⟩
            · simp at g1
            · simp only at g2 g3
              cases g2
              exact ⟨done, n, rest, e, g1, by simp only [runBatch, hset, hdel, hd, hs, h2, g3]⟩
          | none =>
            right
            rcases hsspec with ⟨_, g2⟩ | ⟨done, n, rest, e1, g1, g2, g3⟩
            · simp only at g2
              exact ⟨mem, dbs, rfl, by simp only [hs], by simp only [runBatch, hset, hdel, hd, hs, h2, g2]⟩
            · simp at g2
        · simp at h2

/-! ## Reading a trace -/

@[simp] theorem deleteKeys_append (xs ys : List Event) :
    deleteKeys (xs ++ ys) = deleteKeys xs ++ deleteKeys ys := by
  induction xs with
  | nil => rfl
  | cons x xs ih => cases x <;> simp [deleteKeys, ih]

@[simp] theorem setNodes_append (xs ys : List Event) :
    setNodes (xs ++ ys) = setNodes xs ++ setNodes ys := by
  induction xs with
  | nil => rfl
  | cons x xs ih => cases x <;> simp [setNodes, ih]

@[simp] theorem putNodes_append (xs ys : List Event) :
    putNodes (xs ++ ys) = putNodes xs ++ putNodes ys := by
  induction xs with
  | nil => rfl
  | cons x xs ih => cases x <;> simp [putNodes, ih]

@[simp] theorem storedNodes_append (xs ys : List Event) :
    storedNodes (xs ++ ys) = storedNodes xs ++ storedNodes ys := by
  induction xs with
  | nil => rfl
  | cons x xs ih =>
    cases x with
    | set n err => cases err <;> simp [storedNodes, ih]
    | _ => simp [storedNodes, ih]

@[simp] theorem deleteKeys_deleted (ks : List NodeKey) :
    deleteKeys (ks.map (fun k => Event.delete k none)) = ks := by
  induction ks with
  | nil => rfl
  | cons k ks ih => simp [deleteKeys, ih]

@[simp] theorem setNodes_deleted (ks : List NodeKey) :
    setNodes (ks.map (fun k => Event.delete k none)) = [] := by
  induction ks with
  | nil => rfl
  | cons k ks ih => simp [setNodes, ih]

@[simp] theorem putNodes_deleted (ks : List NodeKey) :
    putNodes (ks.map (fun k => Event.delete k none)) = [] := by
  induction ks with
  | nil => rfl
  | cons k ks ih => simp [putNodes, ih]

@[simp] theorem storedNodes_deleted (ks : List NodeKey) :
    storedNodes (ks.map (fun k => Event.delete k none)) = [] := by
  induction ks with
  | nil => rfl
  | cons k ks ih => simp [storedNodes, ih]

@[simp] theorem deleteKeys_persisted (ns : List Node) :
    deleteKeys (ns.flatMap persisted) = [] := by
  induction ns with
  | nil => rfl
  | cons n ns ih =>
    show deleteKeys (persisted n ++ ns.flatMap persisted) = _
    rw [deleteKeys_append, ih]
    rfl

@[simp] theorem setNodes_persisted (ns : List Node) :
    setNodes (ns.flatMap persisted) = ns := by
  induction ns with
  | nil => rfl
  | cons n ns ih =>
    show setNodes (persisted n ++ ns.flatMap persisted) = _
    rw [setNodes_append, ih]
    rfl

@[simp] theorem putNodes_persisted (ns : List Node) :
    putNodes (ns.flatMap persisted) = ns := by
  induction ns with
  | nil => rfl
  | cons n ns ih =>
    show putNodes (persisted n ++ ns.flatMap persisted) = _
    rw [putNodes_append, ih]
    rfl

@[simp] theorem storedNodes_persisted (ns : List Node) :
    storedNodes (ns.flatMap persisted) = ns := by
  induction ns with
  | nil => rfl
  | cons n ns ih =>
    show storedNodes (persisted n ++ ns.flatMap persisted) = _
    rw [storedNodes_append, ih]
    rfl

/-! ## Failed backend calls -/

theorem failure_deleted (ks : List NodeKey) :
    ∀ ev ∈ ks.map (fun k => Event.delete k none), ev.failure = none := by
  intro ev hev
  obtain ⟨k, _, rfl⟩ := List.mem_map.mp hev
  rfl

theorem failure_persisted (ns : List Node) :
    ∀ ev ∈ ns.flatMap persisted, ev.failure = none := by
  intro ev hev
  obtain ⟨n, _, hn⟩ := List.mem_flatMap.mp hev
  simp only [persisted, List.mem_cons, List.mem_singleton, List.not_mem_nil, or_false] at hn
  rcases hn with rfl | rfl <;> rfl

/-- In the trace of one batch a failed backend call can only be the last
event, and there is one exactly when the batch ends with that error. -/
theorem runBatch_failure_shape {β : Type} (db : KvDB β) (S : Nat → SortProg)
    (sizeBytes : Node → Nat) (args : checkpointArgs) (b : β) :
    ((∀ ev ∈ (runBatch db S sizeBytes args b).2.1, ev.failure = none) ∧
      ∀ e, (runBatch db S sizeBytes args b).2.2 ≠ .failed e) ∨
    (∃ front ev e, (runBatch db S sizeBytes args b).2.1 = front ++ [ev] ∧
      (∀ x ∈ front, x.failure = none) ∧ ev.failure = some e ∧ ev.isBackendOp = true ∧
      (runBatch db S sizeBytes args b).2.2 = .failed e) := by
  rcases runBatch_cases db S sizeBytes args b with ⟨f, h⟩ | ⟨set, del, _, _, h⟩
  · left
    rw [h]
    refine ⟨?_, by simp⟩
    intro ev hev
    simp only [List.mem_singleton] at hev
    subst hev
    rfl
  · rcases h with ⟨done, k, rest, e, _, h⟩ | ⟨done, n, rest, e, _, h⟩ | ⟨m, d, _, _, h⟩
    · right
      refine ⟨Event.logStart args.version :: done.map (fun k => Event.delete k none),
        Event.delete k (some e), e, by rw [h]; simp, ?_, rfl, rfl, by rw [h]⟩
      intro x hx
      rcases List.mem_cons.mp hx with rfl | hx
      · rfl
      · exact failure_deleted done x hx
    · right
      refine ⟨Event.logStart args.version ::
          (del.map (fun k => Event.delete k none) ++ done.flatMap persisted),
        Event.set n (some e), e, by rw [h]; simp, ?_, rfl, rfl, by rw [h]⟩
      intro x hx
      rcases List.mem_cons.mp hx with rfl | hx
      · rfl
      · rcases List.mem_append.mp hx with hx | hx
        · exact failure_deleted del x hx
        · exact failure_persisted done x hx
    · left
      rw [h]
      refine ⟨?_, by simp⟩
      intro x hx
      rcases List.mem_cons.mp hx with rfl | hx
      · rfl
      · rcases List.mem_append.mp hx with hx | hx
        · rcases List.mem_append.mp hx with hx | hx
          · exact failure_deleted del x hx
          · exact failure_persisted set x hx
        · simp only [List.mem_singleton] at hx
          subst hx
          rfl

/-- In the trace of a whole run a failed backend call can only be the last
event, and there is one exactly when the run returns that error. -/
theorem run_failure_shape {β : Type} (cp : checkpointer β) (S : Nat → SortProg)
    (sizeBytes : Node → Nat) : ∀ (script : List Select) (b : β),
    ((∀ ev ∈ (run cp S sizeBytes script b).2.1, ev.failure = none) ∧
      ∀ e, (run cp S sizeBytes script b).2.2 ≠ .returned (some e)) ∨
    (∃ front ev e, (run cp S sizeBytes script b).2.1 = front ++ [ev] ∧
      (∀ x ∈ front, x.failure = none) ∧ ev.failure = some e ∧ ev.isBackendOp = true ∧
      (run cp S sizeBytes script b).2.2 = .returned (some e)) := by
  intro script
  induction script with
  | nil => intro b; left; simp [run]
  | cons sel rest ih =>
    intro b
    cases sel with
    | done => left; simp [run]
    | recv args =>
      rcases hb : runBatch cp.db S sizeBytes args b with ⟨b1, evs, o⟩
      have hshape := runBatch_failure_shape cp.db S sizeBytes args b
      rw [hb] at hshape
      cases o with
      | failed e =>
        rcases hshape with ⟨_, h2⟩ | ⟨front, ev, e1, h1, h2, h3, h4, h5⟩
        · exact absurd rfl (h2 e)
        · right
          simp only [BatchOutcome.failed.injEq] at h5
          subst h5
          exact ⟨front, ev, e, by simp only [run, hb]; exact h1, h2, h3, h4,
            by simp only [run, hb]⟩
      | panicked f =>
        rcases hshape with ⟨h1, _⟩ | ⟨front, ev, e1, h1, h2, h3, h4, h5⟩
        · left
          simp only [run, hb]
          exact ⟨h1, by simp⟩
        · simp at h5
      | completed =>
        rcases hshape with ⟨h1, _⟩ | ⟨front, ev, e1, h1, h2, h3, h4, h5⟩
        · simp only at h1
          rcases ih b1 with ⟨g1, g2⟩ | ⟨front, ev, e, g1, g2, g3, g4, g5⟩
          · left
            simp only [run, hb]
            refine ⟨?_, g2⟩
            intro x hx
            rcases List.mem_append.mp hx with hx | hx
            · exact h1 x hx
            · exact g1 x hx
          · right
            refine ⟨evs ++ front, ev, e, ?_, ?_, g3, g4, ?_⟩
            · simp only [run, hb, g1, List.append_assoc]
            · intro x hx
              rcases List.mem_append.mp hx with hx | hx
              · exact h1 x hx
              · exact g2 x hx
            · simp only [run, hb, g5]
        · simp at h5

/-- An element absent from `front` that occurs in `front ++ [last]` is `last`,
with nothing after it. -/
theorem eq_last_of_split {α : Type} {front pre post : List α} {last x : α}
    (h : front ++ [last] = pre ++ x :: post) (hx : x ∉ front) :
    post = [] ∧ x = last ∧ pre = front := by
  induction front generalizing pre with
  | nil =>
    cases pre with
    | nil => simp at h; exact ⟨h.2, h.1.symm, rfl⟩
    | cons p pre => simp at h
  | cons a front ih =>
    cases pre with
    | nil =>
      simp at h
      exact absurd (by simp [h.1]) hx
    | cons p pre =>
      simp only [List.cons_append, List.cons.injEq] at h
      obtain ⟨h1, h2, h3⟩ := ih h.2 (fun hm => hx (List.mem_cons_of_mem _ hm))
      exact ⟨h1, h2, by rw [h.1, h3]⟩

/-- A trace made of a part without `Set` followed by a part without `Delete`
never has a `Delete` after a `Set`. -/
theorem no_delete_after_set (front back : List Event) (hf : setNodes front = [])
    (hb : deleteKeys back = []) (pre post : List Event)
    (h : front ++ back = pre ++ post) (hpre : setNodes pre ≠ []) :
    deleteKeys post = [] := by
  rcases List.append_eq_append_iff.mp h with ⟨c, h1, h2⟩ | ⟨c, h1, h2⟩
  · rw [h2] at hb
    simp only [deleteKeys_append, List.append_eq_nil] at hb
    exact hb.2
  · rw [h1] at hf
    simp only [setNodes_append, List.append_eq_nil] at hf
    exact absurd hf.1 hpre

/-! ## The claims about the order of the backend calls -/

/-- C3: in the trace of one batch every `Delete` precedes every `Set` (there is
no `Delete` after a `Set`), and a `Set` is issued only when every key of the
batch's delete list has been deleted and every one of those `Delete` calls
returned without error. -/
theorem runBatch_deletes_before_sets {β : Type} (db : KvDB β) (S : Nat → SortProg)
    (sizeBytes : Node → Nat) (args : checkpointArgs) (b : β) :
    (∀ pre post, (runBatch db S sizeBytes args b).2.1 = pre ++ post →
      setNodes pre ≠ [] → deleteKeys post = []) ∧
    (setNodes (runBatch db S sizeBytes args b).2.1 ≠ [] →
      (deleteKeys (runBatch db S sizeBytes args b).2.1).Perm args.delete ∧
      ∀ k err, Event.delete k err ∈ (runBatch db S sizeBytes args b).2.1 → err = none) := by
  rcases runBatch_cases db S sizeBytes args b with ⟨f, h⟩ | ⟨set, del, _, hdel, h⟩
  · rw [h]
    refine ⟨?_, fun hs => absurd (by simp [setNodes]) hs⟩
    intro pre post hsplit hpre
    exact no_delete_after_set [Event.logStart args.version] []
      rfl rfl pre post (by simpa using hsplit) hpre
  · have hperm := sortSlice_perm S _ hdel
    rcases h with ⟨done, k, rest, e, _, h⟩ | ⟨done, n, rest, e, _, h⟩ | ⟨m, d, _, _, h⟩
    · rw [h]
      refine ⟨?_, fun hs => absurd (by simp [setNodes]) hs⟩
      intro pre post hsplit hpre
      exact no_delete_after_set
        (Event.logStart args.version ::
          (done.map (fun k => Event.delete k none) ++ [Event.delete k (some e)]))
        ([]) (by simp [setNodes]) rfl pre post (by simpa using hsplit) hpre
    · rw [h]
      refine ⟨?_, fun _ => ⟨?_, ?_⟩⟩
      · intro pre post hsplit hpre
        exact no_delete_after_set
          (Event.logStart args.version :: del.map (fun k => Event.delete k none))
          (done.flatMap persisted ++ [Event.set n (some e)])
          (by simp [setNodes]) (by simp [deleteKeys]) pre post (by simpa using hsplit) hpre
      · simpa [deleteKeys] using hperm
      · intro k err hmem
        simp [persisted] at hmem
        obtain ⟨_, _, _, herr⟩ := hmem
        exact herr.symm
    · rw [h]
      refine ⟨?_, fun _ => ⟨?_, ?_⟩⟩
      · intro pre post hsplit hpre
        exact no_delete_after_set
          (Event.logStart args.version :: del.map (fun k => Event.delete k none))
          (set.flatMap persisted ++
            [Event.logDone args.version set.length del.length m d])
          (by simp [setNodes]) (by simp [deleteKeys]) pre post (by simpa using hsplit) hpre
      · simpa [deleteKeys] using hperm
      · intro k err hmem
        simp [persisted] at hmem
        obtain ⟨_, _, _, herr⟩ := hmem
        exact herr.symm

/-- C4: a failed backend call ends the run.  If any event of the trace of
`run` is a failed `Delete` or `Set`, it is the last event of the trace (no
later backend call, no later `pool.Put`, no later batch) and `run` returns
exactly its error; and `run` returns an error only if the last event of the
trace is a backend call that failed with that error. -/
theorem run_error_aborts {β : Type} (cp : checkpointer β) (S : Nat → SortProg)
    (sizeBytes : Node → Nat) (script : List Select) (b : β) :
    (∀ pre ev post e, (run cp S sizeBytes script b).2.1 = pre ++ ev :: post →
      ev.failure = some e →
      post = [] ∧ (run cp S sizeBytes script b).2.2 = .returned (some e)) ∧
    (∀ e, (run cp S sizeBytes script b).2.2 = .returned (some e) →
      ∃ pre ev, (run cp S sizeBytes script b).2.1 = pre ++ [ev] ∧
        ev.isBackendOp = true ∧ ev.failure = some e) := by
  rcases run_failure_shape cp S sizeBytes script b with
    ⟨h1, h2⟩ | ⟨front, last, e0, h1, h2, h3, h4, h5⟩
  · refine ⟨?_, fun e he => absurd he (h2 e)⟩
    intro pre ev post e hsplit hfail
    have := h1 ev (by rw [hsplit]; simp)
    rw [hfail] at this
    exact absurd this (by simp)
  · refine ⟨?_, ?_⟩
    · intro pre ev post e hsplit hfail
      have hnot : ev ∉ front := by
        intro hm
        have := h2 ev hm
        rw [hfail] at this
        exact absurd this (by simp)
      obtain ⟨g1, g2, _⟩ := eq_last_of_split (h1.symm.trans hsplit) hnot
      subst g2
      rw [hfail] at h3
      cases h3
      exact ⟨g1, h5⟩
    · intro e he
      rw [h5] at he
      cases he
      exact ⟨front, last, h1, h4, h3⟩

/-- C10: a batch that is processed to the end (no backend error, no panic in
a comparator) passes to `Delete` a permutation of its delete list and to `Set`
a permutation of its set list; the numbers of calls are the lengths of the
two lists. -/
theorem runBatch_only_reorders {β : Type} (db : KvDB β) (S : Nat → SortProg)
    (sizeBytes : Node → Nat) (args : checkpointArgs) (b : β)
    (hdone : (runBatch db S sizeBytes args b).2.2 = .completed) :
    (deleteKeys (runBatch db S sizeBytes args b).2.1).Perm args.delete ∧
    (setNodes (runBatch db S sizeBytes args b).2.1).Perm args.set ∧
    (deleteKeys (runBatch db S sizeBytes args b).2.1).length = args.delete.length ∧
    (setNodes (runBatch db S sizeBytes args b).2.1).length = args.set.length := by
  have key : (deleteKeys (runBatch db S sizeBytes args b).2.1).Perm args.delete ∧
      (setNodes (runBatch db S sizeBytes args b).2.1).Perm args.set := by
    rcases runBatch_cases db S sizeBytes args b with ⟨f, h⟩ | ⟨set, del, hset, hdel, h⟩
    · rw [h] at hdone; simp at hdone
    · rcases h with ⟨done, k, rest, e, _, h⟩ | ⟨done, n, rest, e, _, h⟩ | ⟨m, d, _, _, h⟩
      · rw [h] at hdone; simp at hdone
      · rw [h] at hdone; simp at hdone
      · rw [h]
        exact ⟨by simpa [deleteKeys] using sortSlice_perm S _ hdel,
          by simpa [setNodes] using sortSlice_perm S _ hset⟩
  exact ⟨key.1, key.2, key.1.length_eq, key.2.length_eq⟩

/-- C2: with a sorting routine that meets the contract of `sort.Slice`, and a
batch whose nodes all carry a node key, the nodes reach the backend's `Set` in
non-decreasing `bytes.Compare` order of their node keys, whatever the order of
the set list the caller handed over. -/
theorem runBatch_sets_in_key_order {β : Type} (db : KvDB β) (S : Nat → SortProg)
    (hS : SortsSlices S) (sizeBytes : Node → Nat) (args : checkpointArgs) (b : β)
    (hk : ∀ n ∈ args.set, n.nodeKey.isSome = true) :
    (setNodes (runBatch db S sizeBytes args b).2.1).Pairwise
      (fun m n => ∃ x y, m.nodeKey = some x ∧ n.nodeKey = some y ∧ bytesCompare x y ≤ 0) := by
  obtain ⟨ys, hys, hsorted⟩ := sortSlice_set_sorted S hS args.set hk
  have hkeys : ∀ n ∈ ys, n.nodeKey.isSome = true :=
    fun n hn => hk n ((sortSlice_perm S _ hys).subset hn)
  have hord : ys.Pairwise
      (fun m n => ∃ x y, m.nodeKey = some x ∧ n.nodeKey = some y ∧ bytesCompare x y ≤ 0) := by
    refine List.Pairwise.imp_of_mem ?_ hsorted
    intro m n hm hn hlt
    obtain ⟨x, hx⟩ := Option.isSome_iff_exists.mp (hkeys m hm)
    obtain ⟨y, hy⟩ := Option.isSome_iff_exists.mp (hkeys n hn)
    refine ⟨x, y, hx, hy, ?_⟩
    simp only [nodeKeyLt, hx, hy, Option.getD_some, decide_eq_false_iff_not, not_lt] at hlt
    rw [bytesCompare_flip x y]
    omega
  rcases runBatch_cases db S sizeBytes args b with ⟨f, h⟩ | ⟨set, del, hset, _, h⟩
  · rw [h]; simp [setNodes]
  · rw [hys] at hset
    cases hset
    rcases h with ⟨done, k, rest, e, _, h⟩ | ⟨done, n, rest, e, hsplit, h⟩ | ⟨m, d, _, _, h⟩
    · rw [h]; simp [setNodes]
    · rw [h]
      have hsub : (done ++ [n]).Sublist ys := by
        rw [hsplit]
        exact List.Sublist.append_left (by simp) done
      simpa [setNodes] using hord.sublist hsub
    · rw [h]
      simpa [setNodes] using hord

/-! ## `pool.Put` follows `Set` -/

theorem split_after_front {α : Type} {front mid pre post : List α} {x : α}
    (h : front ++ mid = pre ++ x :: post) (hx : x ∉ front) :
    ∃ pre2, pre = front ++ pre2 ∧ mid = pre2 ++ x :: post := by
  rcases List.append_eq_append_iff.mp h with ⟨c, h1, h2⟩ | ⟨c, h1, h2⟩
  · exact ⟨c, h1, h2⟩
  · cases c with
    | nil => exact ⟨[], by simpa using h1.symm, by simpa using h2.symm⟩
    | cons y c =>
      simp only [List.cons_append, List.cons.injEq] at h2
      exact absurd (by rw [h1, h2.1]; simp) hx

theorem split_before_back {α : Type} {mid back pre post : List α} {x : α}
    (h : mid ++ back = pre ++ x :: post) (hx : x ∉ back) :
    ∃ post2, post = post2 ++ back ∧ mid = pre ++ x :: post2 := by
  rcases List.append_eq_append_iff.mp h with ⟨c, h1, h2⟩ | ⟨c, h1, h2⟩
  · exact absurd (by rw [h2]; simp) hx
  · cases c with
    | nil =>
      simp only [List.nil_append] at h2
      exact absurd (by rw [← h2]; simp) hx
    | cons y c =>
      simp only [List.cons_append, List.cons.injEq] at h2
      exact ⟨c, h2.2, by rw [h1, h2.1]⟩

theorem persisted_put_after_set : ∀ (ns : List Node) (pre post : List Event) (n : Node),
    ns.flatMap persisted = pre ++ Event.put n :: post →
    ∃ pre2, pre = pre2 ++ [Event.set n none]
  | [], pre, post, n, h => by simp at h
  | m :: ms, pre, post, n, h => by
    have h0 : Event.set m none :: Event.put m :: ms.flatMap persisted =
        pre ++ Event.put n :: post := h
    match pre, h0 with
    | [], h0 => simp at h0
    | [x], h0 =>
      simp only [List.cons_append, List.nil_append, List.cons.injEq, Event.put.injEq] at h0
      obtain ⟨h1, h2, _⟩ := h0
      exact ⟨[], by rw [← h1, h2]; rfl⟩
    | x :: y :: pre3, h0 =>
      simp only [List.cons_append, List.cons.injEq] at h0
      obtain ⟨pre4, h4⟩ := persisted_put_after_set ms pre3 post n h0.2.2
      exact ⟨x :: y :: pre4, by rw [h4]; rfl⟩

theorem persisted_set_before_put : ∀ (ns : List Node) (pre post : List Event) (n : Node),
    ns.flatMap persisted = pre ++ Event.set n none :: post →
    ∃ post2, post = Event.put n :: post2
  | [], pre, post, n, h => by simp at h
  | m :: ms, pre, post, n, h => by
    have h0 : Event.set m none :: Event.put m :: ms.flatMap persisted =
        pre ++ Event.set n none :: post := h
    match pre, h0 with
    | [], h0 =>
      simp only [List.nil_append, List.cons.injEq, Event.set.injEq, and_true] at h0
      exact ⟨ms.flatMap persisted, by rw [← h0.2, h0.1]⟩
    | [x], h0 => simp at h0
    | x :: y :: pre3, h0 =>
      simp only [List.cons_append, List.cons.injEq] at h0
      exact persisted_set_before_put ms pre3 post n h0.2.2

/-- The trace of one batch is a front part without successful `Set` and
without `pool.Put`, then the events of the persisted nodes, then at most one
closing event that is neither. -/
theorem runBatch_trace_shape {β : Type} (db : KvDB β) (S : Nat → SortProg)
    (sizeBytes : Node → Nat) (args : checkpointArgs) (b : β) :
    ∃ (front : List Event) (done : List Node) (back : List Event),
      (runBatch db S sizeBytes args b).2.1 =
        front ++ (done.flatMap persisted ++ back) ∧
      (∀ n, Event.put n ∉ front ∧ Event.set n none ∉ front) ∧
      (∀ n, Event.put n ∉ back ∧ Event.set n none ∉ back) ∧
      ((runBatch db S sizeBytes args b).2.2 = .completed → done.Perm args.set) := by
  rcases runBatch_cases db S sizeBytes args b with ⟨f, h⟩ | ⟨set, del, hset, _, h⟩
  · exact ⟨[Event.logStart args.version], [], [], by rw [h]; simp, by simp, by simp,
      by rw [h]; simp⟩
  · rcases h with ⟨done, k, rest, e, _, h⟩ | ⟨done, n, rest, e, _, h⟩ | ⟨m, d, _, _, h⟩
    · exact ⟨Event.logStart args.version ::
          (done.map (fun k => Event.delete k none) ++ [Event.delete k (some e)]),
        [], [], by rw [h]; simp, by simp, by simp, by rw [h]; simp⟩
    · exact ⟨Event.logStart args.version :: del.map (fun k => Event.delete k none),
        done, [Event.set n (some e)], by rw [h]; simp, by simp, by simp, by rw [h]; simp⟩
    · exact ⟨Event.logStart args.version :: del.map (fun k => Event.delete k none),
        set, [Event.logDone args.version set.length del.length m d],
        by rw [h]; simp, by simp, by simp, fun _ => sortSlice_perm S _ hset⟩

/-- C5: in the trace of one batch every `pool.Put` of a node comes right after
the successful `Set` of that node, every successful `Set` of a node is followed
at once by the `pool.Put` of that node, the nodes put back are the nodes stored
with success, in the same order, and a batch processed to the end puts back
every node of its set list. -/
theorem runBatch_put_after_each_set {β : Type} (db : KvDB β) (S : Nat → SortProg)
    (sizeBytes : Node → Nat) (args : checkpointArgs) (b : β) :
    (∀ pre n post, (runBatch db S sizeBytes args b).2.1 = pre ++ Event.put n :: post →
      ∃ pre2, pre = pre2 ++ [Event.set n none]) ∧
    (∀ pre n post, (runBatch db S sizeBytes args b).2.1 = pre ++ Event.set n none :: post →
      ∃ post2, post = Event.put n :: post2) ∧
    putNodes (runBatch db S sizeBytes args b).2.1 =
      storedNodes (runBatch db S sizeBytes args b).2.1 ∧
    ((runBatch db S sizeBytes args b).2.2 = .completed →
      (putNodes (runBatch db S sizeBytes args b).2.1).Perm args.set) := by
  obtain ⟨front, done, back, hshape, hfront, hback, hperm⟩ :=
    runBatch_trace_shape db S sizeBytes args b
  have hput : ∀ evs : List Event, (∀ n, Event.put n ∉ evs ∧ Event.set n none ∉ evs) →
      putNodes evs = [] ∧ storedNodes evs = [] := by
    intro evs
    induction evs with
    | nil => intro _; exact ⟨rfl, rfl⟩
    | cons ev evs ih =>
      intro h
      have ih2 := ih (fun n => ⟨fun hm => (h n).1 (List.mem_cons_of_mem _ hm),
        fun hm => (h n).2 (List.mem_cons_of_mem _ hm)⟩)
      cases ev with
      | put n => exact absurd (List.mem_cons_self _ _) (h n).1
      | set n err =>
        cases err with
        | none => exact absurd (List.mem_cons_self _ _) (h n).2
        | some e => simpa [putNodes, storedNodes] using ih2
      | _ => simpa [putNodes, storedNodes] using ih2
  have hnodes : putNodes (runBatch db S sizeBytes args b).2.1 = done ∧
      storedNodes (runBatch db S sizeBytes args b).2.1 = done := by
    rw [hshape]
    simp [(hput front hfront).1, (hput front hfront).2, (hput back hback).1,
      (hput back hback).2]
  refine ⟨?_, ?_, by rw [hnodes.1, hnodes.2], fun hc => by rw [hnodes.1]; exact hperm hc⟩
  · intro pre n post h
    rw [hshape] at h
    obtain ⟨pre2, h1, h2⟩ := split_after_front h (hfront n).1
    obtain ⟨post2, _, h4⟩ := split_before_back h2 (hback n).1
    obtain ⟨pre3, h5⟩ := persisted_put_after_set done pre2 post2 n h4
    exact ⟨front ++ pre3, by rw [h1, h5]; simp⟩
  · intro pre n post h
    rw [hshape] at h
    obtain ⟨pre2, _, h2⟩ := split_after_front h (hfront n).2
    obtain ⟨post2, h3, h4⟩ := split_before_back h2 (hback n).2
    obtain ⟨post3, h5⟩ := persisted_set_before_put done pre2 post2 n h4
    exact ⟨post3 ++ back, by rw [h3, h5]; simp⟩

/-! ## Reading back what a checkpoint wrote -/

/-- A set loop that ends without error leaves alone every key that none of its
nodes carries. -/
theorem setLoop_get_other {β : Type} (db : KvDB β) (hdb : KvContract db)
    (sizeBytes : Node → Nat) (k : NodeKey) :
    ∀ (ns : List Node) (b : β) (memSize dbSize : Nat),
      (setLoop db sizeBytes ns b memSize dbSize).2.2.2 = none →
      (∀ n ∈ ns, n.nodeKey ≠ some k) →
      db.Get k (setLoop db sizeBytes ns b memSize dbSize).1 = db.Get k b := by
  intro ns
  induction ns with
  | nil => intro b m d _ _; rfl
  | cons n ns ih =>
    intro b m d hok hne
    rcases hd : db.Set n b with ⟨b1, cnt, r⟩
    cases r with
    | some e => simp [setLoop, hd] at hok
    | none =>
      simp only [setLoop, hd] at hok ⊢
      rw [ih b1 _ _ hok (fun x hx => hne x (List.mem_cons_of_mem _ hx))]
      have := hdb.get_set_other n k b (hne n (List.mem_cons_self _ _)) (by rw [hd])
      rw [hd] at this
      exact this

/-- After a set loop that ends without error over nodes with pairwise distinct
node keys, every node of the list reads back from the backend under its key. -/
theorem setLoop_get {β : Type} (db : KvDB β) (hdb : KvContract db)
    (sizeBytes : Node → Nat) :
    ∀ (ns : List Node) (b : β) (memSize dbSize : Nat),
      (setLoop db sizeBytes ns b memSize dbSize).2.2.2 = none →
      (ns.map Node.nodeKey).Nodup →
      ∀ n ∈ ns, ∀ k, n.nodeKey = some k →
        ∃ m, db.Get k (setLoop db sizeBytes ns b memSize dbSize).1 = some m ∧
          m.sameStored n := by
  intro ns
  induction ns with
  | nil => intro b m d _ _ n hn; simp at hn
  | cons x ns ih =>
    intro b m d hok hnd n hn k hk
    rcases hd : db.Set x b with ⟨b1, cnt, r⟩
    cases r with
    | some e => simp [setLoop, hd] at hok
    | none =>
      simp only [List.map_cons, List.nodup_cons] at hnd
      simp only [setLoop, hd] at hok ⊢
      by_cases hmem : n ∈ ns
      · exact ih b1 _ _ hok hnd.2 n hmem k hk
      · have hx : n = x := by
          rcases List.mem_cons.mp hn with h | h
          · exact h
          · exact absurd h hmem
        subst hx
        rw [setLoop_get_other db hdb sizeBytes k ns b1 _ _ hok]
        · have := hdb.get_set_same n k b hk (by rw [hd])
          rw [hd] at this
          exact this
        · intro y hy hyk
          exact hnd.1 (List.mem_map.mpr ⟨y, hy, by rw [hyk, hk]⟩)

/-- C6: with a backend that meets the key/value contract, after a batch has
been processed to the end, every node of the batch's set list (node keys
pairwise distinct) reads back from the backend under its node key with the
same `nodeKey`, `key`, `value`, `hash`, `size`, `subtreeHeight`, `leftNodeKey`
and `rightNodeKey`, also when its key is in the batch's delete list. -/
theorem runBatch_round_trip {β : Type} (db : KvDB β) (hdb : KvContract db)
    (S : Nat → SortProg) (sizeBytes : Node → Nat) (args : checkpointArgs) (b : β)
    (hdone : (runBatch db S sizeBytes args b).2.2 = .completed)
    (hnd : (args.set.map Node.nodeKey).Nodup) :
    ∀ n ∈ args.set, ∀ k, n.nodeKey = some k →
      ∃ m, db.Get k (runBatch db S sizeBytes args b).1 = some m ∧ m.sameStored n := by
  intro n hn k hk
  rcases runBatch_cases db S sizeBytes args b with ⟨f, h⟩ | ⟨set, del, hset, _, h⟩
  · rw [h] at hdone; simp at hdone
  · rcases h with ⟨done, k, rest, e, _, h⟩ | ⟨done, n, rest, e, _, h⟩ | ⟨m, d, _, hok, h⟩
    · rw [h] at hdone; simp at hdone
    · rw [h] at hdone; simp at hdone
    · have hperm := sortSlice_perm S _ hset
      rw [h]
      exact setLoop_get db hdb sizeBytes set _ 0 0 hok
        ((hperm.map Node.nodeKey).nodup_iff.mpr hnd) n (hperm.mem_iff.mpr hn) k hk

/-! ## The run loop -/

/-- Every event of the processing of a batch belongs to that batch. -/
theorem runBatch_events_ofBatch {β : Type} (db : KvDB β) (S : Nat → SortProg)
    (sizeBytes : Node → Nat) (args : checkpointArgs) (b : β) :
    ∀ ev ∈ (runBatch db S sizeBytes args b).2.1, ev.ofBatch args := by
  have hstart : (Event.logStart args.version).ofBatch args := rfl
  have hdels : ∀ ks : List NodeKey, (∀ k ∈ ks, k ∈ args.delete) →
      ∀ ev ∈ ks.map (fun k => Event.delete k none), ev.ofBatch args := by
    intro ks hks ev hev
    obtain ⟨k, hk, rfl⟩ := List.mem_map.mp hev
    exact hks k hk
  have hsets : ∀ ns : List Node, (∀ n ∈ ns, n ∈ args.set) →
      ∀ ev ∈ ns.flatMap persisted, ev.ofBatch args := by
    intro ns hns ev hev
    obtain ⟨n, hn, hmem⟩ := List.mem_flatMap.mp hev
    simp only [persisted, List.mem_cons, List.mem_singleton, List.not_mem_nil,
      or_false] at hmem
    rcases hmem with rfl | rfl <;> exact hns n hn
  rcases runBatch_cases db S sizeBytes args b with ⟨f, h⟩ | ⟨set, del, hset, hdel, h⟩
  · rw [h]
    intro ev hev
    simp only [List.mem_singleton] at hev
    subst hev
    exact hstart
  · have hps := sortSlice_perm S _ hset
    have hpd := sortSlice_perm S _ hdel
    rcases h with ⟨done, k, rest, e, hsplit, h⟩ | ⟨done, n, rest, e, hsplit, h⟩ |
      ⟨m, d, _, _, h⟩
    · rw [h]
      intro ev hev
      rcases List.mem_cons.mp hev with rfl | hev
      · exact hstart
      · rcases List.mem_append.mp hev with hev | hev
        · exact hdels done (fun x hx => hpd.subset (by rw [hsplit]; simp [hx])) ev hev
        · simp only [List.mem_singleton] at hev
          subst hev
          exact hpd.subset (by rw [hsplit]; simp)
    · rw [h]
      intro ev hev
      rcases List.mem_cons.mp hev with rfl | hev
      · exact hstart
      · rcases List.mem_append.mp hev with hev | hev
        · exact hdels del (fun x hx => hpd.subset hx) ev hev
        · rcases List.mem_append.mp hev with hev | hev
          · exact hsets done (fun x hx => hps.subset (by rw [hsplit]; simp [hx])) ev hev
          · simp only [List.mem_singleton] at hev
            subst hev
            exact hps.subset (by rw [hsplit]; simp)
    · rw [h]
      intro ev hev
      rcases List.mem_cons.mp hev with rfl | hev
      · exact hstart
      · rcases List.mem_append.mp hev with hev | hev
        · rcases List.mem_append.mp hev with hev | hev
          · exact hdels del (fun x hx => hpd.subset hx) ev hev
          · exact hsets set (fun x hx => hps.subset hx) ev hev
        · simp only [List.mem_singleton] at hev
          subst hev
          rfl

/-- C8: the handoff channel made by `newCheckpointer` has capacity zero, and
the trace of `run` is the concatenation of one block per batch, in the order in
which the batches were received: each block is the trace of processing that one
batch, and all its events belong to that batch. -/
theorem run_batches_sequential {β : Type} (cp : checkpointer β) (S : Nat → SortProg)
    (sizeBytes : Node → Nat) (script : List Select) (b : β) :
    (newCheckpointer cp.db).chCap = 0 ∧
    ∃ blocks : List (checkpointArgs × List Event),
      (run cp S sizeBytes script b).2.1 = (blocks.map Prod.snd).flatten ∧
      blocks.map Prod.fst <+: received script ∧
      ∀ blk ∈ blocks, (∃ b1, blk.2 = (runBatch cp.db S sizeBytes blk.1 b1).2.1) ∧
        ∀ ev ∈ blk.2, ev.ofBatch blk.1 := by
  refine ⟨rfl, ?_⟩
  induction script generalizing b with
  | nil => exact ⟨[], by simp [run], by simp, by simp⟩
  | cons sel rest ih =>
    cases sel with
    | done => exact ⟨[], by simp [run], by simp, by simp⟩
    | recv args =>
      have hblk : ∀ blk ∈ [(args, (runBatch cp.db S sizeBytes args b).2.1)],
          (∃ b1, blk.2 = (runBatch cp.db S sizeBytes blk.1 b1).2.1) ∧
            ∀ ev ∈ blk.2, ev.ofBatch blk.1 := by
        intro blk hmem
        simp only [List.mem_singleton] at hmem
        subst hmem
        exact ⟨⟨b, rfl⟩, runBatch_events_ofBatch cp.db S sizeBytes args b⟩
      rcases hb : runBatch cp.db S sizeBytes args b with ⟨b1, evs, o⟩
      rw [hb] at hblk
      cases o with
      | failed e =>
        exact ⟨[(args, evs)], by simp [run, hb], by simp [received], hblk⟩
      | panicked f =>
        exact ⟨[(args, evs)], by simp [run, hb], by simp [received], hblk⟩
      | completed =>
        obtain ⟨blocks, h1, h2, h3⟩ := ih b1
        refine ⟨(args, evs) :: blocks, by simp [run, hb, h1], ?_, ?_⟩
        · simpa [received] using h2
        · intro blk hmem
          rcases List.mem_cons.mp hmem with rfl | hmem
          · exact hblk _ (List.mem_singleton.mpr rfl)
          · exact h3 blk hmem

/-- What holds of cancellation: the cancellation branch returns `nil` and does
nothing else; a batch that has been received leaves the same trace whether or
not cancellation is signalled next; when `run` then returns `nil` on
cancellation, every key of the batch's delete list has been deleted and every
node of its set list has been stored and put back; and `run` reaches that
point when no backend call fails and no comparator panics. -/
theorem run_cancellation {β : Type} (cp : checkpointer β) (S : Nat → SortProg)
    (sizeBytes : Node → Nat) (args : checkpointArgs) (rest : List Select) (b : β) :
    run cp S sizeBytes (Select.done :: rest) b = (b, [], .returned none) ∧
    (run cp S sizeBytes (Select.recv args :: Select.done :: rest) b).2.1 =
      (run cp S sizeBytes [Select.recv args] b).2.1 ∧
    ((run cp S sizeBytes (Select.recv args :: Select.done :: rest) b).2.2 =
        .returned none →
      (deleteKeys (run cp S sizeBytes
        (Select.recv args :: Select.done :: rest) b).2.1).Perm args.delete ∧
      (setNodes (run cp S sizeBytes
        (Select.recv args :: Select.done :: rest) b).2.1).Perm args.set ∧
      (putNodes (run cp S sizeBytes
        (Select.recv args :: Select.done :: rest) b).2.1).Perm args.set) ∧
    ((∀ ev ∈ (run cp S sizeBytes (Select.recv args :: Select.done :: rest) b).2.1,
        ev.failure = none) →
      (∀ f, (run cp S sizeBytes (Select.recv args :: Select.done :: rest) b).2.2 ≠
        .panicked f) →
      (run cp S sizeBytes (Select.recv args :: Select.done :: rest) b).2.2 =
        .returned none) := by
  refine ⟨rfl, ?_, ?_, ?_⟩
  · rcases hb : runBatch cp.db S sizeBytes args b with ⟨b1, evs, o⟩
    cases o <;> simp [run, hb]
  · intro hret
    rcases runBatch_cases cp.db S sizeBytes args b with ⟨f, h⟩ | ⟨set, del, hset, hdel, h⟩
    · simp [run, h] at hret
    · rcases h with ⟨done, k, rest1, e, _, h⟩ | ⟨done, n, rest1, e, _, h⟩ | ⟨m, d, _, _, h⟩
      · rcases hb : runBatch cp.db S sizeBytes args b with ⟨b1, evs, o⟩
        rw [hb] at h
        simp only [Prod.mk.injEq] at h
        obtain ⟨h1, h2⟩ := h
        subst h1 h2
        simp [run, hb] at hret
      · rcases hb : runBatch cp.db S sizeBytes args b with ⟨b1, evs, o⟩
        rw [hb] at h
        simp only [Prod.mk.injEq] at h
        obtain ⟨h1, h2⟩ := h
        subst h1 h2
        simp [run, hb] at hret
      · have hps := sortSlice_perm S _ hset
        have hpd := sortSlice_perm S _ hdel
        simp only [run, h, List.append_nil]
        exact ⟨by simpa [deleteKeys] using hpd, by simpa [setNodes] using hps,
          by simpa [putNodes] using hps⟩
  · intro hfail hpanic
    rcases hb : runBatch cp.db S sizeBytes args b with ⟨b1, evs, o⟩
    have hshape := runBatch_failure_shape cp.db S sizeBytes args b
    rw [hb] at hshape
    cases o with
    | completed => simp [run, hb]
    | panicked f => exact absurd (by simp [run, hb]) (hpanic f)
    | failed e =>
      rcases hshape with ⟨_, h2⟩ | ⟨front, ev, e1, h1, _, h3, _, _⟩
      · exact absurd rfl (h2 e)
      · have := hfail ev (by simp only [run, hb]; simp only at h1; rw [h1]; simp)
        rw [h3] at this
        exact absurd this (by simp)

/-! ## The in-memory backend meets the key/value contract -/

theorem find?_filter_ne (k : NodeKey) (l : List (NodeKey × Node)) :
    (l.filter (fun kv => decide (kv.1 ≠ k))).find? (fun kv => decide (kv.1 = k)) = none := by
  induction l with
  | nil => rfl
  | cons x l ih =>
    by_cases hx : x.1 = k
    · simp [List.filter_cons, hx, ih]
    · simp [List.filter_cons, hx, List.find?_cons, ih]

theorem find?_filter_other (k k1 : NodeKey) (hne : k1 ≠ k) (l : List (NodeKey × Node)) :
    l.find? (fun kv => !decide (kv.1 = k) && decide (kv.1 = k1)) =
      l.find? (fun kv => decide (kv.1 = k1)) := by
  congr 1
  funext kv
  by_cases h : kv.1 = k1
  · simp [h, hne]
  · simp [h]

theorem memDB_contract : KvContract memDB where
  get_set_same n k b hk hok := by
    refine ⟨n, ?_, rfl, rfl, rfl, rfl, rfl, rfl, rfl, rfl⟩
    rcases hn : b.next with ⟨r, p⟩
    cases r with
    | some e => simp [memDB, hk, hn] at hok
    | none => simp [memDB, hk, hn]
  get_set_other n k b hk hok := by
    rcases hn : b.next with ⟨r, p⟩
    cases hkey : n.nodeKey with
    | none => simp [memDB, hkey, hn] at hok
    | some k0 =>
      cases r with
      | some e => simp [memDB, hkey, hn] at hok
      | none =>
        have hne : k ≠ k0 := fun h => hk (by rw [hkey, h])
        have hne2 : ¬ k0 = k := fun h => hne h.symm
        simp [memDB, hkey, hn, List.find?_cons, hne2, find?_filter_other k0 k hne]
  get_delete_same k b hok := by
    rcases hn : b.next with ⟨r, p⟩
    cases r with
    | some e => simp [memDB, hn] at hok
    | none => simp [memDB, hn, find?_filter_ne]
  get_delete_other k k1 b hne hok := by
    rcases hn : b.next with ⟨r, p⟩
    cases r with
    | some e => simp [memDB, hn] at hok
    | none => simp [memDB, hn, find?_filter_other k k1 hne]

/-! ## The second `sort.Slice` reads the wrong slice -/

/-- On a set list in node-key order the comparator of `run` answers `false`
for every pair of adjacent indices inside the list. -/
theorem lessBySetKey_adjacent_sorted (ys : List Node)
    (hk : ∀ n ∈ ys, n.nodeKey.isSome = true)
    (hs : ys.Pairwise (fun a b => nodeKeyLt b a = false)) (j : Nat)
    (hj : j + 1 < ys.length) : lessBySetKey ys (j + 1) j = .ok false := by
  rw [lessBySetKey_eq_sliceLess ys hk]
  have h := List.pairwise_iff_getElem.mp hs j (j + 1) (by omega) hj (by omega)
  simp only [sliceLess, List.getElem?_eq_getElem hj,
    List.getElem?_eq_getElem (show j < ys.length by omega), h]

/-- Past the end of the set list the comparator of `run` panics. -/
theorem lessBySetKey_out_of_range (ys : List Node) (i j : Nat) (hi : ys.length ≤ i) :
    lessBySetKey ys i j = .error .indexOutOfRange := by
  simp [lessBySetKey, nodeKeyBytes, List.getElem?_eq_none hi]

/-- Insertion sort driven by the comparator over a set list in node-key order:
as long as its indices stay inside the set list it never swaps, and it panics
at the first index outside. -/
theorem exec_insertionOuter_wrong_slice {α : Type} (ys : List Node)
    (hk : ∀ n ∈ ys, n.nodeKey.isSome = true)
    (hs : ys.Pairwise (fun a b => nodeKeyLt b a = false)) (d : List α) :
    ∀ (n i : Nat), 0 < i →
      (insertionOuter 0 n i).exec (fun i j _ => lessBySetKey ys i j) swapSlice d =
        if n = 0 ∨ i + n ≤ ys.length then .ok d else .error .indexOutOfRange := by
  intro n
  induction n with
  | zero => intro i _; simp [insertionOuter, SortProg.exec]
  | succ n ih =>
    intro i hi
    obtain ⟨j, rfl⟩ : ∃ j, i = j + 1 := ⟨i - 1, by omega⟩
    simp only [insertionOuter, insertionInner, Nat.zero_lt_succ, if_true, SortProg.exec]
    by_cases hin : j + 1 < ys.length
    · rw [lessBySetKey_adjacent_sorted ys hk hs j hin]
      simp only
      rw [ih (j + 1 + 1) (by omega)]
      have : (n = 0 ∨ j + 1 + 1 + n ≤ ys.length) ↔
          (n + 1 = 0 ∨ j + 1 + (n + 1) ≤ ys.length) := by omega
      simp only [this]
    · rw [lessBySetKey_out_of_range ys (j + 1) j (by omega)]
      have : ¬ (n + 1 = 0 ∨ j + 1 + (n + 1) ≤ ys.length) := by omega
      simp only [this, if_false]

/-- The second `sort.Slice` of `run`, with the insertion sort of short slices:
a delete list no longer than the set list (or of at most one key) comes back in
the caller's order, and a longer one makes the comparator panic. -/
theorem sortSlice_delete_wrong_slice (ys : List Node)
    (hk : ∀ n ∈ ys, n.nodeKey.isSome = true)
    (hs : ys.Pairwise (fun a b => nodeKeyLt b a = false)) (d : List NodeKey) :
    sortSlice shortSliceSort (fun i j _ => lessBySetKey ys i j) d =
      if d.length ≤ 1 ∨ d.length ≤ ys.length then .ok d else .error .indexOutOfRange := by
  unfold sortSlice shortSliceSort insertionSortLessFunc
  rw [exec_insertionOuter_wrong_slice ys hk hs d (d.length - (0 + 1)) (0 + 1) (by omega)]
  have : (d.length - (0 + 1) = 0 ∨ 0 + 1 + (d.length - (0 + 1)) ≤ ys.length) ↔
      (d.length ≤ 1 ∨ d.length ≤ ys.length) := by omega
  simp only [this]

/-- For slices of at most 12 elements, where `sort.Slice` is the insertion
sort: every batch whose nodes carry node keys and whose delete list has two or
more keys and more keys than the set list has nodes ends in an
index-out-of-range panic before any backend call. -/
theorem runBatch_panics_of_longer_delete {β : Type} (db : KvDB β)
    (sizeBytes : Node → Nat) (args : checkpointArgs) (b : β)
    (_hshort : args.delete.length ≤ 12)
    (hk : ∀ n ∈ args.set, n.nodeKey.isSome = true)
    (h2 : 2 ≤ args.delete.length) (hlen : args.set.length < args.delete.length) :
    runBatch db shortSliceSort sizeBytes args b =
      (b, [Event.logStart args.version], .panicked .indexOutOfRange) := by
  obtain ⟨ys, hys, hsorted⟩ := sortSlice_set_sorted shortSliceSort shortSliceSort_sorts
    args.set hk
  have hperm := sortSlice_perm shortSliceSort _ hys
  have hkeys : ∀ n ∈ ys, n.nodeKey.isSome = true := fun n hn => hk n (hperm.subset hn)
  have hdel := sortSlice_delete_wrong_slice ys hkeys hsorted args.delete
  have hcond : ¬ (args.delete.length ≤ 1 ∨ args.delete.length ≤ ys.length) := by
    rw [hperm.length_eq]; omega
  rw [if_neg hcond] at hdel
  simp only [runBatch, hys, hdel]

/-- For slices of at most 12 elements, where `sort.Slice` is the insertion
sort: every batch whose nodes carry node keys and whose delete list is no
longer than its set list has its keys deleted in the order in which the caller
listed them. -/
theorem runBatch_deletes_in_caller_order {β : Type} (db : KvDB β)
    (sizeBytes : Node → Nat) (args : checkpointArgs) (b : β)
    (_hshort : args.set.length ≤ 12)
    (hk : ∀ n ∈ args.set, n.nodeKey.isSome = true)
    (hlen : args.delete.length ≤ args.set.length)
    (hdone : (runBatch db shortSliceSort sizeBytes args b).2.2 = .completed) :
    deleteKeys (runBatch db shortSliceSort sizeBytes args b).2.1 = args.delete := by
  obtain ⟨ys, hys, hsorted⟩ := sortSlice_set_sorted shortSliceSort shortSliceSort_sorts
    args.set hk
  have hperm := sortSlice_perm shortSliceSort _ hys
  have hkeys : ∀ n ∈ ys, n.nodeKey.isSome = true := fun n hn => hk n (hperm.subset hn)
  have hdel := sortSlice_delete_wrong_slice ys hkeys hsorted args.delete
  rw [if_pos (Or.inr (by rw [hperm.length_eq]; exact hlen))] at hdel
  rcases runBatch_cases db shortSliceSort sizeBytes args b with
    ⟨f, h⟩ | ⟨set, del, hset, hdel2, h⟩
  · rw [h] at hdone; simp at hdone
  · rw [hys] at hset
    cases hset
    rw [hdel] at hdel2
    cases hdel2
    rcases h with ⟨done, k, rest, e, _, h⟩ | ⟨done, n, rest, e, _, h⟩ | ⟨m, d, _, _, h⟩
    · rw [h] at hdone; simp at hdone
    · rw [h] at hdone; simp at hdone
    · rw [h]; simp [deleteKeys]

/-- C1, the code at a failing input: a batch with two nodes to set and the
delete list `[keyB, keyA]` is processed to the end, and the backend's `Delete`
is called for `keyB` and then for `keyA`, although `keyA` sorts before `keyB`. -/
theorem runBatch_descendingDeletes_unsorted :
    (runBatch memDB shortSliceSort payloadBytes descendingDeletes emptyStore).2.2 =
      .completed ∧
    deleteKeys (runBatch memDB shortSliceSort payloadBytes descendingDeletes emptyStore).2.1 =
      [keyB, keyA] ∧
    bytesCompare keyB keyA = 1 := by
  decide

/-- C9, the code at a failing input: on a batch with two keys to delete and no
node to set, the comparator of the second sort evaluates `args.set[1]` on the
empty set list, and the batch ends in an index-out-of-range panic before any
backend call. -/
theorem runBatch_deletesOnly_panics :
    lessBySetKey deletesOnly.set 1 0 = .error .indexOutOfRange ∧
    runBatch memDB shortSliceSort payloadBytes deletesOnly emptyStore =
      (emptyStore, [Event.logStart 3], .panicked .indexOutOfRange) :=
  ⟨rfl, by decide⟩

/-- C7, the code at a failing input: `run` receives the batch with two keys to
delete and no node to set, and cancellation is signalled next.  No backend call
fails (none is made), yet the batch is not applied: `run` panics with index out
of range in the comparator of the second sort, its only event the opening log
line, and neither key is deleted. -/
theorem run_deletesOnly_not_applied :
    (∀ ev ∈ (run (newCheckpointer memDB) shortSliceSort payloadBytes
      [Select.recv deletesOnly, Select.done] emptyStore).2.1, ev.failure = none) ∧
    run (newCheckpointer memDB) shortSliceSort payloadBytes
      [Select.recv deletesOnly, Select.done] emptyStore =
      (emptyStore, [Event.logStart 3], .panicked .indexOutOfRange) ∧
    deleteKeys (run (newCheckpointer memDB) shortSliceSort payloadBytes
      [Select.recv deletesOnly, Select.done] emptyStore).2.1 = [] ∧
    deletesOnly.delete = [keyA, keyB] := by
  decide

/-! ## The claims at sample inputs -/

/-- The sample batch lists its nodes by descending key; they are stored in
ascending key order. -/
theorem runBatch_sets_in_key_order_witness :
    (∀ n ∈ sampleBatch.set, n.nodeKey.isSome = true) ∧
    setNodes (runBatch memDB shortSliceSort payloadBytes sampleBatch emptyStore).2.1 =
      [leafA, leafB, leafC] ∧
    (setNodes (runBatch memDB shortSliceSort payloadBytes sampleBatch emptyStore).2.1).Pairwise
      (fun m n => ∃ x y, m.nodeKey = some x ∧ n.nodeKey = some y ∧ bytesCompare x y ≤ 0) :=
  ⟨by decide, by decide,
    runBatch_sets_in_key_order memDB shortSliceSort shortSliceSort_sorts payloadBytes
      sampleBatch emptyStore (by decide)⟩

/-- The sample batch reaches its `Set` calls after its one `Delete` succeeded. -/
theorem runBatch_deletes_before_sets_witness :
    setNodes (runBatch memDB shortSliceSort payloadBytes sampleBatch staleStore).2.1 ≠ [] ∧
    (deleteKeys (runBatch memDB shortSliceSort payloadBytes sampleBatch staleStore).2.1).Perm
      sampleBatch.delete ∧
    ∀ k err, Event.delete k err ∈
      (runBatch memDB shortSliceSort payloadBytes sampleBatch staleStore).2.1 → err = none :=
  ⟨by decide,
    (runBatch_deletes_before_sets memDB shortSliceSort payloadBytes sampleBatch
      staleStore).2 (by decide)⟩

/-- With a backend whose second call fails with error `7`, the run stops at
that call, returns `7` and never starts the second batch. -/
theorem run_error_aborts_witness :
    (run (newCheckpointer memDB) shortSliceSort payloadBytes
      [Select.recv sampleBatch, Select.recv descendingDeletes] faultyStore).2.1 =
      [Event.logStart 1, Event.delete keyA none] ++ Event.set leafA (some 7) :: [] ∧
    (Event.set leafA (some 7)).failure = some 7 ∧
    (([] : List Event) = [] ∧
      (run (newCheckpointer memDB) shortSliceSort payloadBytes
        [Select.recv sampleBatch, Select.recv descendingDeletes] faultyStore).2.2 =
        .returned (some 7)) :=
  ⟨by decide, rfl,
    (run_error_aborts (newCheckpointer memDB) shortSliceSort payloadBytes
      [Select.recv sampleBatch, Select.recv descendingDeletes] faultyStore).1
      [Event.logStart 1, Event.delete keyA none] (Event.set leafA (some 7)) [] 7
      (by decide) rfl⟩

/-- In the sample batch all three nodes are put back, and the `pool.Put` of
`leafA` comes right after its `Set`. -/
theorem runBatch_put_after_each_set_witness :
    (runBatch memDB shortSliceSort payloadBytes sampleBatch emptyStore).2.2 = .completed ∧
    (putNodes (runBatch memDB shortSliceSort payloadBytes sampleBatch emptyStore).2.1).Perm
      sampleBatch.set ∧
    ∃ pre2, [Event.logStart 1, Event.delete keyA none, Event.set leafA none] =
      pre2 ++ [Event.set leafA none] :=
  ⟨by decide,
    (runBatch_put_after_each_set memDB shortSliceSort payloadBytes sampleBatch
      emptyStore).2.2.2 (by decide),
    (runBatch_put_after_each_set memDB shortSliceSort payloadBytes sampleBatch
      emptyStore).1 [Event.logStart 1, Event.delete keyA none, Event.set leafA none] leafA
      [Event.set leafB none, Event.put leafB, Event.set leafC none, Event.put leafC,
        Event.logDone 1 3 1 6 6] (by decide)⟩

/-- The key `keyA` is deleted and set in the same batch, over an older node:
the node of the batch is read back. -/
theorem runBatch_round_trip_witness :
    keyA ∈ sampleBatch.delete ∧ leafA ∈ sampleBatch.set ∧
    memDB.Get keyA staleStore = some (leaf keyA [97] [0]) ∧
    ∃ m, memDB.Get keyA
        (runBatch memDB shortSliceSort payloadBytes sampleBatch staleStore).1 = some m ∧
      m.sameStored leafA :=
  ⟨by decide, by decide, by decide,
    runBatch_round_trip memDB memDB_contract shortSliceSort payloadBytes sampleBatch
      staleStore (by decide) (by decide) leafA (by decide) keyA rfl⟩

/-- A batch followed by cancellation is applied whole before `run` returns
`nil`. -/
theorem run_cancellation_witness :
    (run (newCheckpointer memDB) shortSliceSort payloadBytes
      [Select.recv sampleBatch, Select.done] staleStore).2.2 = .returned none ∧
    (deleteKeys (run (newCheckpointer memDB) shortSliceSort payloadBytes
      [Select.recv sampleBatch, Select.done] staleStore).2.1).Perm sampleBatch.delete ∧
    (setNodes (run (newCheckpointer memDB) shortSliceSort payloadBytes
      [Select.recv sampleBatch, Select.done] staleStore).2.1).Perm sampleBatch.set ∧
    (putNodes (run (newCheckpointer memDB) shortSliceSort payloadBytes
      [Select.recv sampleBatch, Select.done] staleStore).2.1).Perm sampleBatch.set :=
  ⟨by decide,
    (run_cancellation (newCheckpointer memDB) shortSliceSort payloadBytes sampleBatch []
      staleStore).2.2.1 (by decide)⟩

/-- Two batches and then cancellation: the trace splits into one block per
batch. -/
theorem run_batches_sequential_witness :
    (newCheckpointer memDB).chCap = 0 ∧
    ∃ blocks : List (checkpointArgs × List Event),
      (run (newCheckpointer memDB) shortSliceSort payloadBytes
        [Select.recv sampleBatch, Select.recv descendingDeletes, Select.done]
        emptyStore).2.1 = (blocks.map Prod.snd).flatten ∧
      blocks.map Prod.fst <+:
        received [Select.recv sampleBatch, Select.recv descendingDeletes, Select.done] ∧
      ∀ blk ∈ blocks,
        (∃ b1, blk.2 = (runBatch (newCheckpointer memDB).db shortSliceSort payloadBytes
          blk.1 b1).2.1) ∧ ∀ ev ∈ blk.2, ev.ofBatch blk.1 :=
  run_batches_sequential (newCheckpointer memDB) shortSliceSort payloadBytes
    [Select.recv sampleBatch, Select.recv descendingDeletes, Select.done] emptyStore

/-- The sample batch is processed to the end, its lists only reordered. -/
theorem runBatch_only_reorders_witness :
    (runBatch memDB shortSliceSort payloadBytes sampleBatch staleStore).2.2 = .completed ∧
    (deleteKeys (runBatch memDB shortSliceSort payloadBytes sampleBatch staleStore).2.1).Perm
      sampleBatch.delete ∧
    (setNodes (runBatch memDB shortSliceSort payloadBytes sampleBatch staleStore).2.1).Perm
      sampleBatch.set ∧
    (deleteKeys (runBatch memDB shortSliceSort payloadBytes sampleBatch
      staleStore).2.1).length = sampleBatch.delete.length ∧
    (setNodes (runBatch memDB shortSliceSort payloadBytes sampleBatch
      staleStore).2.1).length = sampleBatch.set.length :=
  ⟨by decide,
    runBatch_only_reorders memDB shortSliceSort payloadBytes sampleBatch staleStore
      (by decide)⟩

end Iavl
